import Mathlib

/-!
Verification of the SimpleSpriteSheetHelper core against its design spec.

The development shallowly embeds the algorithmic core of the two Python
sources:

* SpriteSheet2Sprite.py — background classification, flood-fill sprite
  detection over scan areas, reading-order sorting, the rectangle edit
  model with its undo stack, and grouped export numbering;
* Sprite2SpriteSheet.py — the sheet compositor (grid placement, offsets,
  canvas bounding box) and the workspace rendering formula.

Machine integers are modelled as Int/Nat (Python ints are unbounded, so no
wrap-around is needed).  Python float expressions over integer data are
modelled exactly over ℤ/ℚ where the source only forms halves, averages and
comparisons of integer-valued quantities; each such spot is noted at the
definition it concerns.  Fallible code (out-of-range list indexing inside
the detector) is modelled in the Except monad.
-/

namespace SSH

open List

/-- RGBA pixel as produced by the RGBA-normalised image view.  Components
are Python ints (0..255 for real images); stored as ℤ because the source
subtracts channels. -/
structure Pixel where
  r : ℤ
  g : ℤ
  b : ℤ
  a : ℤ
deriving DecidableEq, Repr

/-- Rectangle tuple (x, y, width, height) as used for sprite regions and
detection areas in SpriteSheet2Sprite.py. -/
structure Rect where
  x : ℤ
  y : ℤ
  w : ℤ
  h : ℤ
deriving DecidableEq, Repr, Inhabited

/-! ## BackgroundClassifier — SpriteDetector._is_background

Source (SpriteSheet2Sprite.py lines 100-110):

    if pixel_color[3] < 128:  # 透明像素
        return True
    distance = sum((a - b) ** 2 for a, b in zip(pixel_color[:3], self.bg_color[:3])) ** 0.5
    return distance < self.threshold
-/

/-- Sum of squared RGB channel differences, the radicand of the Euclidean
distance computed by the source. -/
def distSq (p q : Pixel) : ℤ :=
  (p.r - q.r) ^ 2 + (p.g - q.g) ^ 2 + (p.b - q.b) ^ 2

/-- Model of SpriteDetector._is_background.  The source compares
the real square root of distSq with the threshold; since both sides are
nonnegative (threshold is the UI spinbox value, range [10, 200]) this is
equivalent to comparing distSq with threshold squared, which is the
square-root-free form used here.  The equivalence with the real-valued
comparison is proved in theorem isBackground_iff_sqrt below. -/
def isBackground (p bg : Pixel) (threshold : ℕ) : Bool :=
  if p.a < 128 then true
  else decide (distSq p bg < (threshold : ℤ) * threshold)

/-! ## SheetCompositor — stitch_sprites (Sprite2SpriteSheet.py lines 2063-2312)

The compositor packs the imported records into a grid.  A record carries
the native pixel size captured at import and the user-adjusted offsets
(spinboxes, range [-500, 500]).  The group label is the string the source
parses out of the `[group]` prefix of the list-item text (lines 2106-2111,
default 默认组); the model carries the parsed label directly, the prefix
parsing being GUI text plumbing. -/

structure ImgRec where
  group : String
  width : ℕ
  height : ℕ
  offX : ℤ
  offY : ℤ
deriving DecidableEq, Repr

/-- Insert one record into the bucket list for its group, creating a new
bucket at the end on first sight — the Python dict `grouped_images`
preserves insertion order, so first-seen group order is kept. -/
def addToBucket (bs : List (String × List ImgRec)) (g : String) (r : ImgRec) :
    List (String × List ImgRec) :=
  match bs with
  | [] => [(g, [r])]
  | (g', rs) :: rest =>
      if g' = g then (g', rs ++ [r]) :: rest else (g', rs) :: addToBucket rest g r

/-- Model of the `grouped_images` dict built at lines 2099-2116. -/
def groupBuckets (recs : List ImgRec) : List (String × List ImgRec) :=
  recs.foldl (fun bs r => addToBucket bs r.group r) []

/-- Flat-mode record order (lines 2207-2210): the source rebuilds
`all_images` by iterating the group buckets, not the original import
sequence. -/
def flatOrder (recs : List ImgRec) : List ImgRec :=
  ((groupBuckets recs).map Prod.snd).flatten

/-- Maximum native width across all records (lines 2088-2094; max_width
starts at 0). -/
def maxRecWidth (recs : List ImgRec) : ℕ :=
  recs.foldl (fun m r => max m r.width) 0

/-- Maximum native height across all records. -/
def maxRecHeight (recs : List ImgRec) : ℕ :=
  recs.foldl (fun m r => max m r.height) 0

/-- Stitch parameters: grid size (spinboxes, range [1, 100]), spacings
(range [0, 100]), forced single size (range [0, 4096], 0 meaning not
forced) and the stitch-by-group checkbox. -/
structure StitchParams where
  cols : ℕ
  rows : ℕ
  hSpacing : ℕ
  vSpacing : ℕ
  singleW : ℕ
  singleH : ℕ
  byGroup : Bool
deriving DecidableEq, Repr

/-- Whether a forced single size is active (`single_width > 0 and
single_height > 0`). -/
def StitchParams.forced (ps : StitchParams) : Bool :=
  decide (0 < ps.singleW) && decide (0 < ps.singleH)

/-- Base cell width (lines 2118-2124): forced single width if active, else
the maximum native width. -/
def baseCellW (ps : StitchParams) (recs : List ImgRec) : ℕ :=
  if ps.forced then ps.singleW else maxRecWidth recs

/-- Base cell height. -/
def baseCellH (ps : StitchParams) (recs : List ImgRec) : ℕ :=
  if ps.forced then ps.singleH else maxRecHeight recs

/-- Cell pitch including spacing (lines 2083-2097). -/
def cellW (ps : StitchParams) (recs : List ImgRec) : ℕ :=
  baseCellW ps recs + ps.hSpacing

/-- Cell pitch including vertical spacing. -/
def cellH (ps : StitchParams) (recs : List ImgRec) : ℕ :=
  baseCellH ps recs + ps.vSpacing

/-- One placed record: the grid cell it was assigned (`row`, `col` as
computed in the loop body) and the computed corner and center coordinates
stored in `image_positions`. -/
structure Placed where
  record : ImgRec
  row : ℕ
  col : ℕ
  left : ℤ
  top : ℤ
  right : ℤ
  bottom : ℤ
  cx : ℤ
  cy : ℤ
deriving DecidableEq, Repr

/-- Flat-mode placement of the record at flat index i (lines 2216-2270).
Note that the offset enters twice: `center_x = cell_center_x + offset_x`
(line 2236) and then `img_left = center_x - width // 2 + offset_x`
(lines 2244-2253), unlike the grouped branch and the workspace renderer. -/
def flatPlaceOne (ps : StitchParams) (recs : List ImgRec) (i : ℕ) (r : ImgRec) :
    Placed :=
  let row := i / ps.cols
  let col := i % ps.cols
  let cellX : ℤ := (col * cellW ps recs : ℕ)
  let cellY : ℤ := (row * cellH ps recs : ℕ)
  let centerX : ℤ := cellX + (baseCellW ps recs / 2 : ℕ) + r.offX
  let centerY : ℤ := cellY + (baseCellH ps recs / 2 : ℕ) + r.offY
  if ps.forced then
    { record := r, row := row, col := col
      left := centerX - (ps.singleW / 2 : ℕ) + r.offX
      top := centerY - (ps.singleH / 2 : ℕ) + r.offY
      right := centerX + (ps.singleW / 2 : ℕ) + r.offX
      bottom := centerY + (ps.singleH / 2 : ℕ) + r.offY
      cx := centerX, cy := centerY }
  else
    { record := r, row := row, col := col
      left := centerX - (r.width / 2 : ℕ) + r.offX
      top := centerY - (r.height / 2 : ℕ) + r.offY
      right := centerX + (r.width / 2 : ℕ) + r.offX
      bottom := centerY + (r.height / 2 : ℕ) + r.offY
      cx := centerX, cy := centerY }

/-- Flat-mode placements (lines 2205-2270): the group-bucketed order is
flattened, truncated to `cols * rows` records, and laid out row-major. -/
def flatPlacements (ps : StitchParams) (recs : List ImgRec) : List Placed :=
  (((flatOrder recs).take (ps.cols * ps.rows)).enum).map
    (fun p => flatPlaceOne ps recs p.1 p.2)

/-- Grouped-mode placement of the record at in-group index i on grid row
rowIdx (lines 2146-2201).  Here the offset enters only once, through
`center_x`, mirroring the workspace renderer. -/
def groupPlaceOne (ps : StitchParams) (recs : List ImgRec) (rowIdx i : ℕ)
    (r : ImgRec) : Placed :=
  let col := i % ps.cols
  let cellX : ℤ := (col * cellW ps recs : ℕ)
  let cellY : ℤ := (rowIdx * cellH ps recs : ℕ)
  let centerX : ℤ := cellX + (baseCellW ps recs / 2 : ℕ) + r.offX
  let centerY : ℤ := cellY + (baseCellH ps recs / 2 : ℕ) + r.offY
  if ps.forced then
    { record := r, row := rowIdx, col := col
      left := centerX - (ps.singleW / 2 : ℕ)
      top := centerY - (ps.singleH / 2 : ℕ)
      right := centerX + (ps.singleW / 2 : ℕ)
      bottom := centerY + (ps.singleH / 2 : ℕ)
      cx := centerX, cy := centerY }
  else
    { record := r, row := rowIdx, col := col
      left := centerX - (r.width / 2 : ℕ)
      top := centerY - (r.height / 2 : ℕ)
      right := centerX + (r.width / 2 : ℕ)
      bottom := centerY + (r.height / 2 : ℕ)
      cx := centerX, cy := centerY }

/-- Grouped-mode placements (lines 2139-2204): each group bucket occupies
one grid row, records past `cols` within a group are dropped
(`if i >= cols: break`), and the next group always starts on the next
row. -/
def groupedPlacements (ps : StitchParams) (recs : List ImgRec) : List Placed :=
  (((groupBuckets recs).map Prod.snd).enum).map
    (fun p => ((p.2.take ps.cols).enum).map
      (fun q => groupPlaceOne ps recs p.1 q.1 q.2))
  |>.flatten

/-- Placement list of a stitch run, selected by the stitch-by-group flag
(line 2137-2139). -/
def stitchPlacements (ps : StitchParams) (recs : List ImgRec) : List Placed :=
  if ps.byGroup then groupedPlacements ps recs else flatPlacements ps recs

/-- Canvas size computed at lines 2126-2275: min_x/min_y start at +inf
(so they are the true minimum over placed lefts/tops once any record is
placed), while max_x/max_y start at 0.  With no placed record the source
would compute int(0 - float(inf)) and raise, hence the none case. -/
def canvasOf (pls : List Placed) : Option (ℤ × ℤ) :=
  match pls with
  | [] => none
  | p :: rest =>
      let minX := rest.foldl (fun m q => min m q.left) p.left
      let minY := rest.foldl (fun m q => min m q.top) p.top
      let maxX := pls.foldl (fun m q => max m q.right) 0
      let maxY := pls.foldl (fun m q => max m q.bottom) 0
      some (max (maxX - minX) 0, max (maxY - minY) 0)

/-- Workspace rendering x coordinate at zoom factor 1 (update_workspace,
line 1696): image top-left = workspace center - width // 2 + offset, so
the image center sits at the workspace center plus the offset — the
offset enters exactly once. -/
def workspaceLeft (centerX : ℤ) (w : ℕ) (offX : ℤ) : ℤ :=
  centerX - (w / 2 : ℕ) + offX

/-- Concrete record list whose group labels interleave: the middle record
belongs to a different group than its neighbours. -/
def c3recs : List ImgRec :=
  [⟨"g1", 1, 1, 0, 0⟩, ⟨"g2", 2, 2, 0, 0⟩, ⟨"g1", 3, 3, 0, 0⟩]

/-! ## RegionEditModel — SpriteCanvas (SpriteSheet2Sprite.py)

The canvas holds the sprite rectangles, the detection areas and the undo
stack.  Geometry during a resize or drag gesture goes through Qt QRect
objects built from the image-space tuples scaled by the display scale
factor and converted back by integer truncation; the model fixes the
scale factor at 1.0, where int(v / 1.0) = v and int(v * 1.0) = v are
exact, so screen coordinates and image coordinates coincide. -/

/-- Snapshot pushed on the undo stack.  The source pushes the tuple
(sprite_rects.copy(), detection_areas.copy()) before sprite-rect
mutations (lines 513, 549, 561) but a bare detection_areas.copy() list
before detection-area mutations (lines 604, 616); undo_last_action
dispatches on the runtime type (lines 1074-1079). -/
inductive Snapshot where
  | pair (rects areas : List Rect)
  | areasOnly (areas : List Rect)
deriving DecidableEq, Repr

/-- Editor state of the SpriteCanvas: the two rectangle lists plus the
undo stack (head = most recent snapshot). -/
structure CanvasState where
  spriteRects : List Rect
  detectionAreas : List Rect
  undoStack : List Snapshot
deriving DecidableEq, Repr

/-- Qt QRect as stored internally: the two corner coordinates, with
width = x2 - x1 + 1 and height = y2 - y1 + 1. -/
structure QRectI where
  x1 : ℤ
  y1 : ℤ
  x2 : ℤ
  y2 : ℤ
deriving DecidableEq, Repr

/-- QRect built from an (x, y, width, height) tuple. -/
def QRectI.ofRect (r : Rect) : QRectI :=
  ⟨r.x, r.y, r.x + r.w - 1, r.y + r.h - 1⟩

/-- Width accessor of QRect. -/
def QRectI.width (q : QRectI) : ℤ := q.x2 - q.x1 + 1

/-- Height accessor of QRect. -/
def QRectI.height (q : QRectI) : ℤ := q.y2 - q.y1 + 1

/-- QRect.setLeft: moves the left edge, keeping the right edge. -/
def QRectI.setLeft (q : QRectI) (p : ℤ) : QRectI := { q with x1 := p }

/-- QRect.setRight: moves the right edge, keeping the left edge. -/
def QRectI.setRight (q : QRectI) (p : ℤ) : QRectI := { q with x2 := p }

/-- QRect.setTop. -/
def QRectI.setTop (q : QRectI) (p : ℤ) : QRectI := { q with y1 := p }

/-- QRect.setBottom. -/
def QRectI.setBottom (q : QRectI) (p : ℤ) : QRectI := { q with y2 := p }

/-- QRect.normalized as implemented in Qt 5: the corner pairs are swapped
when x2 < x1 - 1 (respectively y2 < y1 - 1). -/
def QRectI.normalized (q : QRectI) : QRectI :=
  let xs := if q.x2 < q.x1 - 1 then (q.x2, q.x1) else (q.x1, q.x2)
  let ys := if q.y2 < q.y1 - 1 then (q.y2, q.y1) else (q.y1, q.y2)
  ⟨xs.1, ys.1, xs.2, ys.2⟩

/-- QRect.translated. -/
def QRectI.translated (q : QRectI) (dx dy : ℤ) : QRectI :=
  ⟨q.x1 + dx, q.y1 + dy, q.x2 + dx, q.y2 + dy⟩

/-- Resize-direction bit constants LEFT = 1, RIGHT = 2, TOP = 4,
BOTTOM = 8 (SpriteCanvas class constants); a direction is tested with a
bitwise and. -/
def dirLeft : ℕ := 1

/-- RIGHT direction bit. -/
def dirRight : ℕ := 2

/-- TOP direction bit. -/
def dirTop : ℕ := 4

/-- BOTTOM direction bit. -/
def dirBottom : ℕ := 8

/-- Geometry of resize_sprite_rect / resize_detection_area (lines 799-835
and 846-882, identical): apply the dragged edges, normalise, then enforce
the minimum size of 10 by pulling the opposite edge. -/
def resizeCalc (dir : ℕ) (px py : ℤ) (orig : QRectI) : QRectI :=
  let r1 :=
    if dir &&& dirLeft ≠ 0 then orig.setLeft px
    else if dir &&& dirRight ≠ 0 then orig.setRight px
    else orig
  let r2 :=
    if dir &&& dirTop ≠ 0 then r1.setTop py
    else if dir &&& dirBottom ≠ 0 then r1.setBottom py
    else r1
  let r3 := r2.normalized
  let r4 :=
    if r3.width < 10 then
      if dir &&& dirLeft ≠ 0 then r3.setLeft (r3.x2 - 10)
      else r3.setRight (r3.x1 + 10)
    else r3
  if r4.height < 10 then
    if dir &&& dirTop ≠ 0 then r4.setTop (r4.y2 - 10)
    else r4.setBottom (r4.y1 + 10)
  else r4

/-- Whole sprite-rect resize gesture at scale factor 1: the press on a
handle pushes the pair snapshot (line 549), the moves recompute the
rectangle from original_rect and the mouse position (resize_sprite_rect),
the final position wins.  Lines 838-840 clamp width and height to at
least 1 when a pixmap is loaded (assumed here).  An out-of-range index
cannot arise in the source (the index comes from iterating the list); the
model returns the state unchanged in that dead branch. -/
def resizeSpriteRectOp (s : CanvasState) (i : ℕ) (dir : ℕ) (px py : ℤ) :
    CanvasState :=
  match s.spriteRects[i]? with
  | none => s
  | some r =>
      let q := resizeCalc dir px py (QRectI.ofRect r)
      let newRect : Rect := ⟨q.x1, q.y1, max 1 q.width, max 1 q.height⟩
      { spriteRects := s.spriteRects.set i newRect
        detectionAreas := s.detectionAreas
        undoStack := .pair s.spriteRects s.detectionAreas :: s.undoStack }

/-- Whole detection-area resize gesture at scale factor 1: the press
pushes the bare area list (line 604); resize_detection_area applies the
same geometry but without the final width/height clamp (lines 878-885). -/
def resizeDetectionAreaOp (s : CanvasState) (i : ℕ) (dir : ℕ) (px py : ℤ) :
    CanvasState :=
  match s.detectionAreas[i]? with
  | none => s
  | some r =>
      let q := resizeCalc dir px py (QRectI.ofRect r)
      let newRect : Rect := ⟨q.x1, q.y1, q.width, q.height⟩
      { spriteRects := s.spriteRects
        detectionAreas := s.detectionAreas.set i newRect
        undoStack := .areasOnly s.detectionAreas :: s.undoStack }

/-- Whole sprite-rect drag gesture at scale factor 1: the press pushes
the pair snapshot (line 561); drag_sprite_rect translates original_rect
by the mouse delta and clamps x, y to be nonnegative (lines 737-758). -/
def dragSpriteRectOp (s : CanvasState) (i : ℕ) (dx dy : ℤ) : CanvasState :=
  match s.spriteRects[i]? with
  | none => s
  | some r =>
      let q := (QRectI.ofRect r).translated dx dy
      let newRect : Rect := ⟨max 0 q.x1, max 0 q.y1, q.width, q.height⟩
      { spriteRects := s.spriteRects.set i newRect
        detectionAreas := s.detectionAreas
        undoStack := .pair s.spriteRects s.detectionAreas :: s.undoStack }

/-- Whole detection-area drag gesture at scale factor 1 (push at line
616, geometry at lines 761-783). -/
def dragDetectionAreaOp (s : CanvasState) (i : ℕ) (dx dy : ℤ) : CanvasState :=
  match s.detectionAreas[i]? with
  | none => s
  | some r =>
      let q := (QRectI.ofRect r).translated dx dy
      let newRect : Rect := ⟨max 0 q.x1, max 0 q.y1, q.width, q.height⟩
      { spriteRects := s.spriteRects
        detectionAreas := s.detectionAreas.set i newRect
        undoStack := .areasOnly s.detectionAreas :: s.undoStack }

/-- Second shift-click of the swap gesture (lines 510-525): pushes the
pair snapshot, then exchanges the rectangles at the two indices.  The
source only reaches this with distinct indices. -/
def swapSpriteRectsOp (s : CanvasState) (i j : ℕ) : CanvasState :=
  match s.spriteRects[i]?, s.spriteRects[j]? with
  | some ri, some rj =>
      { spriteRects := (s.spriteRects.set i rj).set j ri
        detectionAreas := s.detectionAreas
        undoStack := .pair s.spriteRects s.detectionAreas :: s.undoStack }
  | _, _ => s

/-- Model of undo_last_action (lines 1067-1082): no-op on the empty
stack; otherwise pop and dispatch on the snapshot shape, replacing both
lists (tuple snapshot) or only the detection areas (bare list
snapshot). -/
def undoLastAction (s : CanvasState) : CanvasState :=
  match s.undoStack with
  | [] => s
  | .pair rects areas :: rest =>
      { spriteRects := rects, detectionAreas := areas, undoStack := rest }
  | .areasOnly areas :: rest =>
      { spriteRects := s.spriteRects, detectionAreas := areas, undoStack := rest }

/-- Observable pair the undo claim compares: the sprite regions and the
detection areas. -/
def statePair (s : CanvasState) : List Rect × List Rect :=
  (s.spriteRects, s.detectionAreas)

/-! ## Grouped export — start_split (SpriteSheet2Sprite.py lines 1527-1575)

With export-by-area enabled and a nonempty area list, each sprite crop is
routed to the subfolder of the first detection area containing its center
point, numbered by that area's own counter, or to the top-level output
directory with its detection-order number when no area contains the
center. -/

/-- Horizontal center x + width / 2 (line 1552).  The source computes
this in Python float arithmetic; on integer rectangle data these are
exact halves, modelled in ℚ. -/
def centerXq (r : Rect) : ℚ := (r.x : ℚ) + (r.w : ℚ) / 2

/-- Vertical center y + height / 2 (line 1553). -/
def centerYq (r : Rect) : ℚ := (r.y : ℚ) + (r.h : ℚ) / 2

/-- Containment test of line 1558: area_x <= cx < area_x + area_width
and area_y <= cy < area_y + area_height (half-open on the far sides). -/
def centerInArea (r a : Rect) : Bool :=
  decide ((a.x : ℚ) ≤ centerXq r) && decide (centerXq r < (a.x : ℚ) + (a.w : ℚ)) &&
  decide ((a.y : ℚ) ≤ centerYq r) && decide (centerYq r < (a.y : ℚ) + (a.h : ℚ))

/-- Index of the first detection area containing the sprite center
(loop with break, lines 1556-1560); none when no area contains it. -/
def firstArea (areas : List Rect) (r : Rect) : Option ℕ :=
  areas.findIdx? (fun a => centerInArea r a)

/-- Destination of one exported sprite: the subfolder (area index, none
meaning the top-level output directory) and the numeric part of the file
name `{base}_{num:04d}.png`. -/
structure ExportDest where
  areaIdx : Option ℕ
  num : ℕ
deriving DecidableEq, Repr

/-- Export loop of lines 1539-1575 at absolute sprite index k with the
current per-area counters (the dict area_counters, every entry 0 at line
1536; modelled as a total function).  A sprite whose center lies in area
j increments that counter and uses its new value; an unmatched sprite
uses its own detection-order index + 1. -/
def exportGo (areas : List Rect) (k : ℕ) (counters : ℕ → ℕ) :
    List Rect → List ExportDest
  | [] => []
  | r :: rest =>
      match firstArea areas r with
      | some j =>
          ⟨some j, counters j + 1⟩ ::
            exportGo areas (k + 1) (Function.update counters j (counters j + 1)) rest
      | none => ⟨none, k + 1⟩ :: exportGo areas (k + 1) counters rest

/-- Destinations of a grouped export run over the sprite list. -/
def exportDests (areas rects : List Rect) : List ExportDest :=
  exportGo areas 0 (fun _ => 0) rects

/-! ## ReadingOrderSorter — on_detection_finished (lines 1430-1481)

The detected regions are sorted top-to-bottom by vertical center, grouped
into rows greedily against the running row average with tolerance
0.7 * average height, and each row is sorted left-to-right by horizontal
center.  All quantities the source computes in Python float arithmetic
(centers, averages, the 0.7 factor) are exact halves, means and tenths of
integers; the model computes them in ℚ.  Python list.sort(key) is a
stable sort by key, and the stable sort by a fixed key is unique, so it
is modelled by List.mergeSort on the keyed le relation, which is also
stable. -/

/-- Stage 1 (line 1437): sort by vertical center ascending. -/
def sortByCy (l : List Rect) : List Rect :=
  l.mergeSort (fun a b => decide (centerYq a ≤ centerYq b))

/-- Mean height of the regions (lines 1440-1441). -/
def avgHeight (l : List Rect) : ℚ :=
  ((l.map (fun r => (r.h : ℚ))).sum) / (l.length : ℚ)

/-- One step of the greedy row clustering (lines 1450-1466): the first
region opens the row; a later region joins the current row when its
vertical center is within the tolerance of the running row average,
otherwise it opens a new row. -/
def clusterStep (tol : ℚ) (st : List (List Rect) × List Rect) (r : Rect) :
    List (List Rect) × List Rect :=
  match st with
  | (rows, []) => (rows, [r])
  | (rows, cur) =>
      let rowCenter := ((cur.map centerYq).sum) / (cur.length : ℚ)
      if |centerYq r - rowCenter| ≤ tol then (rows, cur ++ [r])
      else (rows ++ [cur], [r])

/-- Closing step of the clustering (lines 1468-1470): append the last
open row if nonempty. -/
def finishRows (st : List (List Rect) × List Rect) : List (List Rect) :=
  match st with
  | (rows, []) => rows
  | (rows, cur) => rows ++ [cur]

/-- Row clustering of the vertically sorted list, closing the last row at
the end (lines 1447-1470). -/
def clusterRows (tol : ℚ) (l : List Rect) : List (List Rect) :=
  finishRows (l.foldl (clusterStep tol) ([], []))

/-- Stage 5 (line 1476): sort one row by horizontal center ascending. -/
def sortRowByCx (row : List Rect) : List Rect :=
  row.mergeSort (fun a b => decide (centerXq a ≤ centerXq b))

/-- Full reading-order sort of on_detection_finished: empty input is left
untouched (the `if rects:` guard at line 1435); otherwise sort by
vertical center, cluster into rows with tolerance 0.7 * average height,
sort each row by horizontal center and concatenate. -/
def sortReadingOrder (l : List Rect) : List Rect :=
  if l.isEmpty then l
  else
    let sorted := sortByCy l
    let tol := (7 : ℚ) / 10 * avgHeight sorted
    ((clusterRows tol sorted).map sortRowByCx).flatten

/-- Rectangle of a perfect grid at row rw and column cl: columns advance
by the horizontal pitch px, rows by the vertical pitch py, every cell the
same w by h size. -/
def gridRect (x0 y0 px py w h : ℤ) (rw cl : ℕ) : Rect :=
  ⟨x0 + cl * px, y0 + rw * py, w, h⟩

/-- One grid row, columns left to right. -/
def gridRow (x0 y0 px py w h : ℤ) (C : ℕ) (rw : ℕ) : List Rect :=
  (List.range C).map (gridRect x0 y0 px py w h rw)

/-- The full grid in row-major reading order. -/
def gridList (x0 y0 px py w h : ℤ) (R C : ℕ) : List Rect :=
  ((List.range R).map (gridRow x0 y0 px py w h C)).flatten

/-- Vertical center value shared by every rectangle of grid row rw. -/
def rowKey (y0 py h : ℤ) (rw : ℕ) : ℚ :=
  ((y0 + (rw : ℤ) * py : ℤ) : ℚ) + (h : ℚ) / 2

/-! ## RegionDetector — SpriteDetector.detect_sprites (lines 32-76) and
SpriteDetector._find_sprite_region (lines 112-156)

The detector walks every supplied scan area in raster order over the
visited grid `visited[height][width]` (a Python list of lists shared by
all areas), flood-fills each unvisited opaque non-background pixel with
an 8-connected BFS, and collects the bounding boxes of the filled
components, dropping boxes smaller than 5 in either dimension.

The scan loops index `visited[y][x]` and `pixels[x, y]` without bounds
checks, so a scan area reaching outside the image raises IndexError and
aborts the whole detection (the except branch shows an error dialog and
never emits detection_finished).  Indexing is modelled with Python
semantics: an index i of a length-n list resolves to i when 0 <= i < n,
to i + n when -n <= i < 0, and raises otherwise; the whole computation
therefore lives in Except.  Inside the BFS every access is guarded by
`0 <= nx < width and 0 <= ny < height` (line 142), so the BFS itself is
modelled with total accessors; they agree with the Python behaviour on
the height-by-width grid the detector builds.

The BFS while-loop is modelled with fuel width * height + 1: every queue
entry is marked visited when enqueued and only unvisited cells are
enqueued, so the loop pops at most width * height entries; the fuel is
never exhausted on the grids the detector builds.

The progress value `int((y / height) * 100)` (line 70) is modelled as
the exact truncated quotient of 100 * y by height; the Python float
division may differ by one unit at unrepresentable boundary fractions,
which affects none of the properties proved here. -/

/-- Python list index resolution: nonnegative indices below the length
stand as is, indices in [-n, 0) wrap, anything else raises. -/
def pyIdx (n : ℕ) (i : ℤ) : Option ℕ :=
  if 0 ≤ i ∧ i < (n : ℤ) then some i.toNat
  else if -(n : ℤ) ≤ i ∧ i < 0 then some (i + n).toNat
  else none

/-- Python list read l[i]. -/
def pyGet {α : Type} (l : List α) (i : ℤ) : Except Unit α :=
  match pyIdx l.length i with
  | some k =>
      match l[k]? with
      | some a => .ok a
      | none => .error ()
  | none => .error ()

/-- Decoded image: size plus a pixel function over nonnegative in-range
coordinates (the RGBA view produced by convert('RGBA')). -/
structure Img where
  width : ℕ
  height : ℕ
  pix : ℕ → ℕ → Pixel

/-- PIL pixel read pixels[x, y]; PixelAccess also resolves negative
coordinates by wrapping and raises outside [-size, size). -/
def pixGet (img : Img) (x y : ℤ) : Except Unit Pixel :=
  match pyIdx img.width x, pyIdx img.height y with
  | some xi, some yi => .ok (img.pix xi yi)
  | _, _ => .error ()

/-- Total read of the visited grid at nonnegative coordinates (used only
under the BFS bounds guard, where it matches Python indexing). -/
def visGetN (vis : List (List Bool)) (y x : ℕ) : Bool :=
  ((vis[y]?).getD []).getD x false

/-- Total write of the visited grid under Python index resolution; the
write is dropped on an invalid index, a branch the detector never
reaches (the seed index was read successfully by the caller first). -/
def visSetZ (vis : List (List Bool)) (y x : ℤ) (b : Bool) : List (List Bool) :=
  match pyIdx vis.length y with
  | some yi =>
      match vis[yi]? with
      | some row =>
          match pyIdx row.length x with
          | some xi => vis.set yi (row.set xi b)
          | none => vis
      | none => vis
  | none => vis

/-- The eight neighbour offsets in the order generated by the nested
`for dx ... for dy ...` loops of lines 136-139. -/
def neighborOffsets : List (ℤ × ℤ) :=
  [(-1, -1), (-1, 0), (-1, 1), (0, -1), (0, 1), (1, -1), (1, 0), (1, 1)]

/-- BFS working state: the FIFO queue, the visited grid and the running
bounding box. -/
structure BfsState where
  queue : List (ℤ × ℤ)
  visited : List (List Bool)
  minX : ℤ
  minY : ℤ
  maxX : ℤ
  maxY : ℤ
deriving Repr

/-- Neighbour step of lines 141-146: inside the image bounds, an
unvisited opaque non-background neighbour is marked visited and
enqueued. -/
def tryNeighbor (img : Img) (bg : Pixel) (t : ℕ) (p : ℤ × ℤ)
    (st : BfsState) (d : ℤ × ℤ) : BfsState :=
  let nx := p.1 + d.1
  let ny := p.2 + d.2
  if 0 ≤ nx ∧ nx < (img.width : ℤ) ∧ 0 ≤ ny ∧ ny < (img.height : ℤ) then
    if visGetN st.visited ny.toNat nx.toNat then st
    else
      let c := img.pix nx.toNat ny.toNat
      if 128 < c.a ∧ ¬ isBackground c bg t then
        { st with visited := visSetZ st.visited ny nx true
                  queue := st.queue ++ [(nx, ny)] }
      else st
  else st

/-- Process all eight neighbours of one popped cell. -/
def visitNeighbors (img : Img) (bg : Pixel) (t : ℕ) (p : ℤ × ℤ)
    (st : BfsState) : BfsState :=
  neighborOffsets.foldl (tryNeighbor img bg t p) st

/-- Fuelled BFS while-loop of lines 126-146: pop the queue head, absorb
it into the bounding box, enqueue acceptable neighbours. -/
def bfsLoop (img : Img) (bg : Pixel) (t : ℕ) : ℕ → BfsState → BfsState
  | 0, st => st
  | fuel + 1, st =>
      match st.queue with
      | [] => st
      | (x, y) :: rest =>
          let st1 : BfsState :=
            { st with queue := rest
                      minX := min st.minX x
                      maxX := max st.maxX x
                      minY := min st.minY y
                      maxY := max st.maxY y }
          bfsLoop img bg t fuel (visitNeighbors img bg t (x, y) st1)

/-- Model of _find_sprite_region: seed the BFS at the given cell (marked
visited first, line 119), run it, and return the bounding box unless it
is smaller than 5x5 (noise filter, lines 148-154); the visited marks are
kept either way. -/
def findSpriteRegion (img : Img) (bg : Pixel) (t : ℕ) (sx sy : ℤ)
    (visited : List (List Bool)) : Option Rect × List (List Bool) :=
  let st0 : BfsState :=
    { queue := [(sx, sy)], visited := visSetZ visited sy sx true
      minX := sx, minY := sy, maxX := sx, maxY := sy }
  let st := bfsLoop img bg t (img.width * img.height + 1) st0
  let w := st.maxX - st.minX + 1
  let h := st.maxY - st.minY + 1
  (if w < 5 ∨ h < 5 then none else some ⟨st.minX, st.minY, w, h⟩, st.visited)

/-- Detector state threaded through the scan loops. -/
structure DetState where
  visited : List (List Bool)
  rects : List Rect
  progress : List ℤ
deriving Repr

/-- Python range(a, b) over ints. -/
def intRange (a b : ℤ) : List ℤ :=
  (List.range (b - a).toNat).map (fun (k : ℕ) => a + (k : ℤ))

/-- Scan of a single pixel of an area (lines 61-68): an unvisited opaque
non-background pixel seeds a flood fill whose retained bounding box is
appended to the result list. -/
def scanPixel (img : Img) (bg : Pixel) (t : ℕ) (y : ℤ) (st : DetState)
    (x : ℤ) : Except Unit DetState := do
  let row ← pyGet st.visited y
  let v ← pyGet row x
  if v then return st
  else
    let c ← pixGet img x y
    if 128 < c.a ∧ ¬ isBackground c bg t then
      match findSpriteRegion img bg t x y st.visited with
      | (some r, vis2) => return { st with visited := vis2, rects := st.rects ++ [r] }
      | (none, vis2) => return { st with visited := vis2 }
    else
      return st

/-- Scan of a whole area (lines 53-71): raster order over the area, one
progress value int((y / height) * 100) emitted after each row. -/
def scanArea (img : Img) (bg : Pixel) (t : ℕ) (st : DetState) (area : Rect) :
    Except Unit DetState :=
  (intRange area.y (area.y + area.h)).foldlM
    (fun s y => do
      let s2 ← (intRange area.x (area.x + area.w)).foldlM
        (scanPixel img bg t y) s
      pure { s2 with progress := s2.progress ++ [Int.tdiv (100 * y) (img.height : ℤ)] })
    st

/-- Model of detect_sprites with an explicitly supplied background
colour: empty area list means scan the whole image (lines 49-50); on
success the collected rectangles are delivered through
detection_finished, on an IndexError nothing is delivered (lines
73-76). -/
def effectiveAreas (img : Img) (areas0 : List Rect) : List Rect :=
  if areas0.isEmpty then [⟨0, 0, (img.width : ℤ), (img.height : ℤ)⟩] else areas0

/-- Model of detect_sprites with an explicitly supplied background
colour: the fresh visited grid, the scan over every effective area, and
on success the delivery of the collected rectangles through
detection_finished; on an IndexError nothing is delivered (lines
73-76). -/
def detectSprites (img : Img) (bg : Pixel) (t : ℕ) (areas0 : List Rect) :
    Except Unit (List Rect × List ℤ) := do
  let visited0 := List.replicate img.height (List.replicate img.width false)
  let st ← (effectiveAreas img areas0).foldlM (scanArea img bg t) ⟨visited0, [], []⟩
  pure (st.rects, st.progress)

/-- Shape invariant of the visited grid: height rows of width cells. -/
def VShape (img : Img) (vis : List (List Bool)) : Prop :=
  vis.length = img.height ∧ ∀ row ∈ vis, row.length = img.width

/-- Fully opaque white pixel used by the concrete detector runs. -/
def whitePx : Pixel := ⟨255, 255, 255, 255⟩

/-- All-background 1 x 4 image. -/
def img1x4 : Img := ⟨1, 4, fun _ _ => whitePx⟩

/-- All-background 3 x 3 image. -/
def img3x3 : Img := ⟨3, 3, fun _ _ => whitePx⟩

/-! ### Flood-fill containment (claim C2)

The synthetic-image hypotheses describe a family of pairwise separated
8-connected blobs on an otherwise background-coloured canvas; the goal
is that detect returns exactly the blobs' bounding boxes.  Positions are
(x, y) pairs of integers. -/

/-- In-bounds predicate for a position. -/
def inB (img : Img) (p : ℤ × ℤ) : Prop :=
  0 ≤ p.1 ∧ p.1 < (img.width : ℤ) ∧ 0 ≤ p.2 ∧ p.2 < (img.height : ℤ)

instance (img : Img) (p : ℤ × ℤ) : Decidable (inB img p) := by
  unfold inB
  infer_instance

/-- Foreground test the detector applies to a pixel: opaque beyond 128
and not background. -/
def fgP (img : Img) (bg : Pixel) (t : ℕ) (p : ℤ × ℤ) : Prop :=
  128 < (img.pix p.1.toNat p.2.toNat).a
    ∧ ¬ isBackground (img.pix p.1.toNat p.2.toNat) bg t = true

instance (img : Img) (bg : Pixel) (t : ℕ) (p : ℤ × ℤ) :
    Decidable (fgP img bg t p) := by
  unfold fgP
  infer_instance

/-- 8-neighbourhood adjacency. -/
def adj8 (p q : ℤ × ℤ) : Prop :=
  p ≠ q ∧ |p.1 - q.1| ≤ 1 ∧ |p.2 - q.2| ≤ 1

instance (p q : ℤ × ℤ) : Decidable (adj8 p q) := by
  unfold adj8
  infer_instance

/-- Visited-grid truth at a position (meaningful for in-bounds
positions). -/
def visTrue (vis : List (List Bool)) (p : ℤ × ℤ) : Prop :=
  visGetN vis p.2.toNat p.1.toNat = true

/-- Leftmost x coordinate of a blob (0 when empty). -/
def bminX (B : Finset (ℤ × ℤ)) : ℤ := ((B.image Prod.fst).min).untop' 0

/-- Rightmost x coordinate of a blob. -/
def bmaxX (B : Finset (ℤ × ℤ)) : ℤ := ((B.image Prod.fst).max).unbot' 0

/-- Topmost y coordinate of a blob. -/
def bminY (B : Finset (ℤ × ℤ)) : ℤ := ((B.image Prod.snd).min).untop' 0

/-- Bottommost y coordinate of a blob. -/
def bmaxY (B : Finset (ℤ × ℤ)) : ℤ := ((B.image Prod.snd).max).unbot' 0

/-- True bounding box of a blob, in the detector's (x, y, width, height)
convention. -/
def blobRect (B : Finset (ℤ × ℤ)) : Rect :=
  ⟨bminX B, bminY B, bmaxX B - bminX B + 1, bmaxY B - bminY B + 1⟩

/-- Loop invariant of the BFS of lines 126-146, relative to the blob B
containing the seed: D is the set of cells already popped, the visited
grid holds its initial truths V0 plus every popped or queued cell, all
tracked cells belong to B, every neighbour of a popped cell that lies in
B has been marked, and the running bounds are the bounds of the popped
cells together with the seed. -/
def BfsInv (img : Img) (B : Finset (ℤ × ℤ)) (V0 : (ℤ × ℤ) → Prop)
    (seed : ℤ × ℤ) (D : Finset (ℤ × ℤ)) (st : BfsState) : Prop :=
  VShape img st.visited
  ∧ (∀ q, inB img q → (visTrue st.visited q ↔ (V0 q ∨ q ∈ D ∨ q ∈ st.queue)))
  ∧ (∀ q ∈ D, q ∈ B)
  ∧ (∀ q ∈ st.queue, q ∈ B)
  ∧ (seed ∈ D ∨ seed ∈ st.queue)
  ∧ (∀ p ∈ D, ∀ q, adj8 p q → q ∈ B → (V0 q ∨ q ∈ D ∨ q ∈ st.queue))
  ∧ st.minX = bminX (insert seed D)
  ∧ st.maxX = bmaxX (insert seed D)
  ∧ st.minY = bminY (insert seed D)
  ∧ st.maxY = bmaxY (insert seed D)

/-- The state the flood fill starts from: the seed marked and queued,
the bounds collapsed onto the seed (lines 114-124). -/
def seedState (sx sy : ℤ) (visited : List (List Bool)) : BfsState :=
  { queue := [(sx, sy)], visited := visSetZ visited sy sx true
    minX := sx, minY := sy, maxX := sx, maxY := sy }

/-- The state the BFS of _find_sprite_region ends in. -/
def floodState (img : Img) (bg : Pixel) (t : ℕ) (sx sy : ℤ)
    (visited : List (List Bool)) : BfsState :=
  bfsLoop img bg t (img.width * img.height + 1) (seedState sx sy visited)

/-- Raster-scan invariant: S is the list of blobs discovered so far, in
discovery order; the visited grid holds exactly their cells and the
result list holds exactly their bounding boxes. -/
def ScanInv (img : Img) (Blobs : List (Finset (ℤ × ℤ)))
    (S : List (Finset (ℤ × ℤ))) (st : DetState) : Prop :=
  VShape img st.visited
  ∧ (∀ q, inB img q → (visTrue st.visited q ↔ ∃ B ∈ S, q ∈ B))
  ∧ (∀ B ∈ S, B ∈ Blobs)
  ∧ S.Nodup
  ∧ st.rects = S.map blobRect

/-- A solid black pixel. -/
def blackPx : Pixel := ⟨0, 0, 0, 255⟩

/-- A 7 x 7 white image with a 5 x 5 black blob at (1, 1). -/
def img7x7 : Img :=
  ⟨7, 7, fun x y => if 1 ≤ x ∧ x ≤ 5 ∧ 1 ≤ y ∧ y ≤ 5 then blackPx
    else whitePx⟩

/-- The cell set of that blob. -/
def blob1 : Finset (ℤ × ℤ) := Finset.Icc (1 : ℤ) 5 ×ˢ Finset.Icc (1 : ℤ) 5

/-! ## Theorems -/

/-- Bridge between the square-root-free model and the real square root the
source computes: for a positive threshold, the classifier answers true
exactly when the pixel is transparent (alpha strictly below 128) or the
real Euclidean RGB distance is strictly below the threshold. -/
theorem isBackground_iff_sqrt (p bg : Pixel) (t : ℕ) (ht : 0 < t) :
    isBackground p bg t = true ↔
      (p.a < 128 ∨ Real.sqrt ((distSq p bg : ℤ) : ℝ) < (t : ℝ)) := by
  have htr : (0 : ℝ) < (t : ℝ) := by exact_mod_cast ht
  have key : Real.sqrt ((distSq p bg : ℤ) : ℝ) < (t : ℝ) ↔
      distSq p bg < (t : ℤ) * t := by
    rw [Real.sqrt_lt' htr]
    rw [show ((t : ℝ)) ^ 2 = (((t : ℤ) * t : ℤ) : ℝ) by push_cast; ring]
    exact Int.cast_lt
  by_cases hc : p.a < 128 <;> simp [isBackground, hc, key]

/-- Claim C5 counterexample: a fully lit pixel with alpha exactly 128 far
from the reference colour is NOT classified as background (the source
tests alpha < 128, line 102, not alpha ≤ 128), yet the claim calls every
alpha-128 pixel background.  Here distSq = 3 * 255 ^ 2 = 195075, whose
square root (about 441.67) is at least the threshold 50, so the distance
disjunct is false as well under either reading. -/
theorem isBackground_alpha128_cex :
    ¬ ((isBackground ⟨255, 255, 255, 128⟩ ⟨0, 0, 0, 255⟩ 50 = true) ↔
      ((⟨255, 255, 255, 128⟩ : Pixel).a ≤ 128 ∨
        distSq ⟨255, 255, 255, 128⟩ ⟨0, 0, 0, 255⟩ < 50 * 50)) := by decide

/-- Witness for isBackground_iff_sqrt at a concrete input. -/
theorem isBackground_iff_sqrt_witness :
    isBackground ⟨255, 255, 255, 128⟩ ⟨0, 0, 0, 255⟩ 50 = true ↔
      ((⟨255, 255, 255, 128⟩ : Pixel).a < 128 ∨
        Real.sqrt ((distSq ⟨255, 255, 255, 128⟩ ⟨0, 0, 0, 255⟩ : ℤ) : ℝ) < ((50 : ℕ) : ℝ)) :=
  isBackground_iff_sqrt ⟨255, 255, 255, 128⟩ ⟨0, 0, 0, 255⟩ 50 (by decide)

/-- When every record carries the same group label, the bucket fold keeps
them all in the single bucket for that label, in order. -/
theorem foldl_addToBucket_const (g : String) (l : List ImgRec)
    (hg : ∀ r ∈ l, r.group = g) :
    ∀ rs : List ImgRec,
      l.foldl (fun bs r => addToBucket bs r.group r) [(g, rs)] = [(g, rs ++ l)] := by
  induction l with
  | nil => simp
  | cons a t ih =>
    intro rs
    have ha : a.group = g := hg a (by simp)
    have ht : ∀ r ∈ t, r.group = g := fun r hr => hg r (by simp [hr])
    rw [List.foldl_cons]
    have hstep : addToBucket [(g, rs)] a.group a = [(g, rs ++ [a])] := by
      rw [ha]; simp [addToBucket]
    rw [hstep, ih ht (rs ++ [a])]
    simp

/-- With a uniform group label the flat-mode order is the original import
sequence. -/
theorem flatOrder_const_group (g : String) (recs : List ImgRec)
    (hg : ∀ r ∈ recs, r.group = g) : flatOrder recs = recs := by
  cases recs with
  | nil => rfl
  | cons a t =>
    have ha : a.group = g := hg a (by simp)
    have ht : ∀ r ∈ t, r.group = g := fun r hr => hg r (by simp [hr])
    unfold flatOrder groupBuckets
    simp only [List.foldl_cons, addToBucket, ha]
    rw [foldl_addToBucket_const g t ht [a]]
    simp

/-- Claim C1 (code bug): in flat mode the user offset enters the paste
position twice.  For a single record in a 1x1 grid with no forced size,
the flat branch computes img_left = 2 * offset_x while the grouped branch
computes img_left = offset_x; the center-alignment-plus-offset formula of
the spec (and of the workspace renderer, update_workspace line 1696, and
of the flat branch's own comment at line 2240) gives offset_x.  The flat
branch (lines 2244-2253) therefore does not place the image center at
cell_top_left + base_cell_size / 2 + offset. -/
theorem flat_mode_applies_offset_twice (g : String) (w h : ℕ) (ox oy : ℤ) :
    ((flatPlacements ⟨1, 1, 0, 0, 0, 0, false⟩ [⟨g, w, h, ox, oy⟩]).map
        Placed.left = [2 * ox])
    ∧ ((groupedPlacements ⟨1, 1, 0, 0, 0, 0, true⟩ [⟨g, w, h, ox, oy⟩]).map
        Placed.left = [ox]) := by
  constructor
  · simp [flatPlacements, flatOrder, groupBuckets, addToBucket, flatPlaceOne,
      StitchParams.forced, baseCellW, cellW, maxRecWidth, List.enum]
    ring
  · simp [groupedPlacements, groupBuckets, addToBucket, groupPlaceOne,
      StitchParams.forced, baseCellW, cellW, maxRecWidth, List.enum]

/-- Claim C3 counterexample: in flat mode the records are NOT placed in
their sequence order when group labels interleave — the source flattens
the group buckets (lines 2207-2210), so the third import (width 3) is
placed before the second (width 2). -/
theorem flat_not_sequence_order :
    ¬ ((flatPlacements ⟨2, 2, 0, 0, 0, 0, false⟩ c3recs).map Placed.record
        = c3recs) := by decide

/-- Claim C3 (amended): flat mode lays out the group-bucketed sequence
(buckets in first-seen order, import order within each bucket) row-major:
the record at flat index i sits in grid row i / columns and column
i % columns, and records beyond columns * rows are dropped.  When all
records carry one group label the bucketed sequence is the import
sequence. -/
theorem flat_layout_row_major (ps : StitchParams) (recs : List ImgRec)
    (hb : ps.byGroup = false) :
    (stitchPlacements ps recs).length
        = min (flatOrder recs).length (ps.cols * ps.rows)
    ∧ (∀ i : ℕ, i < (stitchPlacements ps recs).length →
        ((stitchPlacements ps recs)[i]?.map Placed.record = (flatOrder recs)[i]?
        ∧ (stitchPlacements ps recs)[i]?.map Placed.row = some (i / ps.cols)
        ∧ (stitchPlacements ps recs)[i]?.map Placed.col = some (i % ps.cols)))
    ∧ (∀ g : String, (∀ r ∈ recs, r.group = g) → flatOrder recs = recs) := by
  simp only [stitchPlacements, hb, if_neg Bool.false_ne_true]
  refine ⟨?_, ?_, ?_⟩
  · simp only [flatPlacements, List.length_map, List.enum_length, List.length_take]
    omega
  · intro i hi
    simp only [flatPlacements, List.length_map, List.enum_length,
      List.length_take] at hi
    have hi2 : i < (flatOrder recs).length := lt_of_lt_of_le hi (by omega)
    have htk : ((flatOrder recs).take (ps.cols * ps.rows))[i]?
        = some ((flatOrder recs).get ⟨i, hi2⟩) := by
      rw [List.getElem?_take_of_lt (by omega)]
      simp [List.getElem?_eq_getElem hi2]
    refine ⟨?_, ?_, ?_⟩ <;>
      simp [flatPlacements, List.getElem?_map, List.getElem?_enum, htk,
        flatPlaceOne, List.getElem?_eq_getElem hi2] <;>
      by_cases hf : ps.forced <;> simp [hf]
  · exact fun g hg => flatOrder_const_group g recs hg

/-- Witness for flat_layout_row_major at a concrete input. -/
theorem flat_layout_row_major_witness :
    (stitchPlacements ⟨2, 2, 0, 0, 0, 0, false⟩ c3recs).length
        = min (flatOrder c3recs).length 4
    ∧ (∀ i : ℕ, i < (stitchPlacements ⟨2, 2, 0, 0, 0, 0, false⟩ c3recs).length →
        ((stitchPlacements ⟨2, 2, 0, 0, 0, 0, false⟩ c3recs)[i]?.map Placed.record
            = (flatOrder c3recs)[i]?
        ∧ (stitchPlacements ⟨2, 2, 0, 0, 0, 0, false⟩ c3recs)[i]?.map Placed.row
            = some (i / 2)
        ∧ (stitchPlacements ⟨2, 2, 0, 0, 0, 0, false⟩ c3recs)[i]?.map Placed.col
            = some (i % 2)))
    ∧ (∀ g : String, (∀ r ∈ c3recs, r.group = g) → flatOrder c3recs = c3recs) :=
  flat_layout_row_major ⟨2, 2, 0, 0, 0, 0, false⟩ c3recs rfl

/-- Claim C6 counterexample: a single 5x5 record with zero offset and no
forced size yields a 4x4 canvas, not 5x5 — img_right is computed as
center + width // 2 (line 2252), so odd sizes lose a pixel. -/
theorem canvas_single_record_odd_cex :
    canvasOf (stitchPlacements ⟨1, 1, 0, 0, 0, 0, false⟩ [⟨"a", 5, 5, 0, 0⟩])
      = some (4, 4) ∧ ((4 : ℤ), (4 : ℤ)) ≠ ((5 : ℤ), (5 : ℤ)) := by decide

/-- Claim C6 (amended): for a single record with zero offsets and no
forced single size, the output canvas is the native size rounded down to
even in each dimension: 2 * (width / 2) by 2 * (height / 2).  It equals
the native size exactly when width and height are both even. -/
theorem canvas_single_record (g : String) (w h : ℕ) (ps : StitchParams)
    (hf : ps.forced = false) (hc : 0 < ps.cols) (hr : 0 < ps.rows) :
    canvasOf (stitchPlacements ps [⟨g, w, h, 0, 0⟩])
      = some (((2 * (w / 2) : ℕ) : ℤ), ((2 * (h / 2) : ℕ) : ℤ)) := by
  have hcr : 0 < ps.cols * ps.rows := Nat.mul_pos hc hr
  have h1 : List.take ps.cols [(⟨g, w, h, 0, 0⟩ : ImgRec)] = [⟨g, w, h, 0, 0⟩] :=
    List.take_of_length_le (by simpa using hc)
  have h2 : List.take (ps.cols * ps.rows) [(⟨g, w, h, 0, 0⟩ : ImgRec)]
      = [⟨g, w, h, 0, 0⟩] :=
    List.take_of_length_le (by simp; omega)
  unfold stitchPlacements
  by_cases hb : ps.byGroup
  · simp [hb, groupedPlacements, groupBuckets, addToBucket, List.enum, h1,
      groupPlaceOne, hf, canvasOf, baseCellW, baseCellH, maxRecWidth,
      maxRecHeight]
    omega
  · simp [hb, flatPlacements, flatOrder, groupBuckets, addToBucket, List.enum, h2,
      flatPlaceOne, hf, canvasOf, baseCellW, baseCellH, maxRecWidth,
      maxRecHeight]
    omega

/-- Witness for canvas_single_record at a concrete input. -/
theorem canvas_single_record_witness :
    canvasOf (stitchPlacements ⟨1, 1, 0, 0, 0, 0, false⟩ [⟨"a", 6, 7, 0, 0⟩])
      = some (((2 * (6 / 2) : ℕ) : ℤ), ((2 * (7 / 2) : ℕ) : ℤ)) :=
  canvas_single_record "a" 6 7 ⟨1, 1, 0, 0, 0, 0, false⟩ rfl (by decide) (by decide)

/-- Claim C4: every single mutating gesture (resize or drag of a sprite
rectangle or detection area, pairwise swap of two sprite rectangles)
followed by undo restores the exact pre-operation (regions, areas) pair,
and undo on an empty stack is a silent no-op.  The bare-list snapshot the
source pushes for detection-area gestures still round-trips, because
those gestures leave the sprite list untouched. -/
theorem undo_round_trip (s : CanvasState) (i j : ℕ) (dir : ℕ) (px py dx dy : ℤ) :
    (i < s.spriteRects.length →
      statePair (undoLastAction (resizeSpriteRectOp s i dir px py)) = statePair s)
    ∧ (i < s.detectionAreas.length →
      statePair (undoLastAction (resizeDetectionAreaOp s i dir px py)) = statePair s)
    ∧ (i < s.spriteRects.length →
      statePair (undoLastAction (dragSpriteRectOp s i dx dy)) = statePair s)
    ∧ (i < s.detectionAreas.length →
      statePair (undoLastAction (dragDetectionAreaOp s i dx dy)) = statePair s)
    ∧ (i < s.spriteRects.length → j < s.spriteRects.length → i ≠ j →
      statePair (undoLastAction (swapSpriteRectsOp s i j)) = statePair s)
    ∧ (s.undoStack = [] → undoLastAction s = s) := by
  refine ⟨?_, ?_, ?_, ?_, ?_, ?_⟩
  · intro hi
    simp [resizeSpriteRectOp, List.getElem?_eq_getElem hi, undoLastAction, statePair]
  · intro hi
    simp [resizeDetectionAreaOp, List.getElem?_eq_getElem hi, undoLastAction, statePair]
  · intro hi
    simp [dragSpriteRectOp, List.getElem?_eq_getElem hi, undoLastAction, statePair]
  · intro hi
    simp [dragDetectionAreaOp, List.getElem?_eq_getElem hi, undoLastAction, statePair]
  · intro hi hj _
    simp [swapSpriteRectsOp, List.getElem?_eq_getElem hi, List.getElem?_eq_getElem hj,
      undoLastAction, statePair]
  · intro h
    simp [undoLastAction, h]

/-- Witness for undo_round_trip at a concrete state. -/
theorem undo_round_trip_witness :
    let s : CanvasState :=
      ⟨[⟨0, 0, 20, 20⟩, ⟨40, 0, 20, 20⟩], [⟨0, 0, 100, 100⟩], []⟩
    (0 < s.spriteRects.length →
      statePair (undoLastAction (resizeSpriteRectOp s 0 1 5 5)) = statePair s)
    ∧ (0 < s.detectionAreas.length →
      statePair (undoLastAction (resizeDetectionAreaOp s 0 1 5 5)) = statePair s)
    ∧ (0 < s.spriteRects.length →
      statePair (undoLastAction (dragSpriteRectOp s 0 3 4)) = statePair s)
    ∧ (0 < s.detectionAreas.length →
      statePair (undoLastAction (dragDetectionAreaOp s 0 3 4)) = statePair s)
    ∧ (0 < s.spriteRects.length → 1 < s.spriteRects.length → 0 ≠ 1 →
      statePair (undoLastAction (swapSpriteRectsOp s 0 1)) = statePair s)
    ∧ (s.undoStack = [] → undoLastAction s = s) :=
  undo_round_trip ⟨[⟨0, 0, 20, 20⟩, ⟨40, 0, 20, 20⟩], [⟨0, 0, 100, 100⟩], []⟩
    0 1 1 5 5 3 4

/-- Length preservation of the export loop. -/
theorem exportGo_length (areas : List Rect) :
    ∀ (l : List Rect) (k : ℕ) (c : ℕ → ℕ),
      (exportGo areas k c l).length = l.length := by
  intro l
  induction l with
  | nil => intro k c; rfl
  | cons r0 rest ih =>
    intro k c
    cases hfa : firstArea areas r0 with
    | some j =>
        simpa [exportGo, hfa] using ih (k + 1) (Function.update c j (c j + 1))
    | none => simpa [exportGo, hfa] using ih (k + 1) c

/-- Characterisation of the export loop: position i of the output names
the first containing area of sprite i, numbered by how many of the first
i + 1 sprites map to that same area on top of the starting counter; an
unmatched sprite keeps its absolute index. -/
theorem exportGo_spec (areas : List Rect) :
    ∀ (l : List Rect) (k : ℕ) (c : ℕ → ℕ) (i : ℕ), i < l.length →
      (exportGo areas k c l)[i]? =
        some (match firstArea areas l[i]! with
          | some j => ⟨some j,
              c j + ((l.take (i + 1)).filter
                (fun r => firstArea areas r == some j)).length⟩
          | none => ⟨none, k + i + 1⟩) := by
  intro l
  induction l with
  | nil => intro k c i hi; simp at hi
  | cons r0 rest ih =>
    intro k c i hi
    match i with
    | 0 =>
      cases hfa : firstArea areas r0 with
      | some j => simp [exportGo, hfa]
      | none => simp [exportGo, hfa]
    | i + 1 =>
      have hi2 : i < rest.length := by simpa using hi
      cases hfa : firstArea areas r0 with
      | some j0 =>
        simp only [exportGo, hfa, List.getElem?_cons_succ]
        rw [ih (k + 1) (Function.update c j0 (c j0 + 1)) i hi2]
        have hget : (r0 :: rest)[i + 1]! = rest[i]! := by
          simp [List.getElem!_cons_succ]
        rw [hget]
        cases hfb : firstArea areas rest[i]! with
        | some j =>
          simp only [List.take_succ_cons, List.filter_cons]
          by_cases hjj : j = j0
          · subst hjj
            simp [hfa, Function.update_same]
            omega
          · simp [hfa, Function.update_noteq hjj, hjj,
              show ¬ (some j0 == some j) = true by simpa using (Ne.symm hjj)]
        | none => simp; omega
      | none =>
        simp only [exportGo, hfa, List.getElem?_cons_succ]
        rw [ih (k + 1) c i hi2]
        have hget : (r0 :: rest)[i + 1]! = rest[i]! := by
          simp [List.getElem!_cons_succ]
        rw [hget]
        cases hfb : firstArea areas rest[i]! with
        | some j =>
          simp only [List.take_succ_cons, List.filter_cons]
          simp [hfa]
        | none => simp; omega

/-- Claim C9: in a grouped export every sprite whose center lies in some
detection area (first match in list order, half-open containment) is
numbered by that area's own independent 1-based counter — its number is
the count of sprites up to and including itself that map to the same
area — while a sprite matching no area keeps its detection-order number
i + 1 in the top-level output directory. -/
theorem export_grouped_numbering (areas rects : List Rect) (i : ℕ)
    (hi : i < rects.length) :
    (exportDests areas rects).length = rects.length
    ∧ (exportDests areas rects)[i]? =
        some (match firstArea areas rects[i]! with
          | some j => ⟨some j,
              ((rects.take (i + 1)).filter
                (fun r => firstArea areas r == some j)).length⟩
          | none => ⟨none, i + 1⟩) := by
  constructor
  · exact exportGo_length areas rects 0 (fun _ => 0)
  · have := exportGo_spec areas rects 0 (fun _ => 0) i hi
    unfold exportDests
    rw [this]
    cases firstArea areas rects[i]! <;> simp

/-- Witness for export_grouped_numbering: two areas with three sprites
each plus one unmatched sprite, matching the scenario of the spec. -/
theorem export_grouped_numbering_witness :
    let areas : List Rect := [⟨0, 0, 100, 100⟩, ⟨100, 0, 100, 100⟩]
    let rects : List Rect :=
      [⟨10, 10, 10, 10⟩, ⟨110, 10, 10, 10⟩, ⟨30, 10, 10, 10⟩,
       ⟨130, 10, 10, 10⟩, ⟨50, 10, 10, 10⟩, ⟨150, 10, 10, 10⟩,
       ⟨300, 10, 10, 10⟩]
    (exportDests areas rects).length = rects.length
    ∧ (exportDests areas rects)[6]? =
        some (match firstArea areas rects[6]! with
          | some j => ⟨some j,
              ((rects.take 7).filter
                (fun r => firstArea areas r == some j)).length⟩
          | none => ⟨none, 7⟩) :=
  export_grouped_numbering
    [⟨0, 0, 100, 100⟩, ⟨100, 0, 100, 100⟩]
    [⟨10, 10, 10, 10⟩, ⟨110, 10, 10, 10⟩, ⟨30, 10, 10, 10⟩,
     ⟨130, 10, 10, 10⟩, ⟨50, 10, 10, 10⟩, ⟨150, 10, 10, 10⟩,
     ⟨300, 10, 10, 10⟩] 6 (by decide)

/-- Sum of a map that is constant on the list. -/
theorem sum_map_const_key (key : Rect → ℚ) (k : ℚ) :
    ∀ l : List Rect, (∀ r ∈ l, key r = k) →
      (l.map key).sum = k * (l.length : ℚ) := by
  intro l
  induction l with
  | nil => simp
  | cons a t ih =>
    intro hck
    have ha := hck a (by simp)
    have ht : ∀ r ∈ t, key r = k := fun r hr => hck r (by simp [hr])
    simp [ha, ih ht]
    ring

/-- Mean of a nonempty list on which the key is constant. -/
theorem mean_const_key (key : Rect → ℚ) (k : ℚ) (l : List Rect) (hne : l ≠ [])
    (hck : ∀ r ∈ l, key r = k) :
    ((l.map key).sum) / (l.length : ℚ) = k := by
  rw [sum_map_const_key key k l hck]
  have hlen : l.length ≠ 0 := fun h0 => hne (List.length_eq_zero.mp h0)
  have hq : (l.length : ℚ) ≠ 0 := Nat.cast_ne_zero.mpr hlen
  field_simp

/-- Clustering keeps absorbing regions into the current row while every
incoming vertical center equals the constant center of the row. -/
theorem foldl_cluster_within (tol : ℚ) (htol : 0 ≤ tol) (k : ℚ) :
    ∀ (xs : List Rect) (rows : List (List Rect)) (cur : List Rect),
      cur ≠ [] → (∀ r ∈ cur, centerYq r = k) → (∀ r ∈ xs, centerYq r = k) →
      List.foldl (clusterStep tol) (rows, cur) xs = (rows, cur ++ xs) := by
  intro xs
  induction xs with
  | nil => intro rows cur _ _ _; simp
  | cons x t ih =>
    intro rows cur hne hc hx
    match cur, hne with
    | c :: cs, _ =>
      have hmean : (((c :: cs).map centerYq).sum) / (((c :: cs).length : ℕ) : ℚ) = k :=
        mean_const_key centerYq k (c :: cs) (by simp) hc
      have hstep : clusterStep tol (rows, c :: cs) x = (rows, (c :: cs) ++ [x]) := by
        simp only [clusterStep, hmean, hx x (by simp)]
        rw [if_pos (by simpa using htol)]
      rw [List.foldl_cons, hstep,
        ih rows ((c :: cs) ++ [x]) (by simp)
          (by intro r hr
              rcases List.mem_append.mp hr with h1 | h1
              · exact hc r h1
              · simpa [List.mem_singleton.mp h1] using hx x (by simp))
          (fun r hr => hx r (by simp [hr]))]
      simp

/-- Clustering a concatenation of nonempty constant-center chunks whose
center values are separated by more than the tolerance yields exactly
those chunks, appended after the open row. -/
theorem foldl_cluster_chunks (tol : ℚ) (htol : 0 ≤ tol) :
    ∀ (parts : List (List Rect)) (ks : List ℚ),
      List.Forall₂ (fun P k => P ≠ [] ∧ ∀ r ∈ P, centerYq r = k) parts ks →
      ks.Chain' (fun a b => tol < b - a) →
      ∀ (rows : List (List Rect)) (cur : List Rect) (kc : ℚ),
        cur ≠ [] → (∀ r ∈ cur, centerYq r = kc) →
        (∀ k0, ks.head? = some k0 → tol < k0 - kc) →
        finishRows (List.foldl (clusterStep tol) (rows, cur) parts.flatten)
          = rows ++ cur :: parts := by
  intro parts
  induction parts with
  | nil =>
    intro ks hf _ rows cur kc hne _ _
    cases hf
    match cur, hne with
    | c :: cs, _ => simp [finishRows]
  | cons P Ps ih =>
    intro ks hf hchain rows cur kc hne hc hgap
    cases hf with
    | cons hPk hrest =>
      rename_i k ks2
      obtain ⟨hPne, hPk⟩ := hPk
      match P, hPne with
      | p :: Pr, _ =>
        have hkp : centerYq p = k := hPk p (by simp)
        match cur, hne with
        | c :: cs, _ =>
          have hmean : (((c :: cs).map centerYq).sum) / (((c :: cs).length : ℕ) : ℚ) = kc :=
            mean_const_key centerYq kc (c :: cs) (by simp) hc
          have hgk : tol < k - kc := hgap k rfl
          have habs : ¬ (|k - kc| ≤ tol) := by
            rw [abs_of_nonneg (by linarith : (0 : ℚ) ≤ k - kc)]
            linarith
          have hstep : clusterStep tol (rows, c :: cs) p = (rows ++ [c :: cs], [p]) := by
            simp only [clusterStep, hmean, hkp]
            rw [if_neg habs]
          have hflat : (((p :: Pr) :: Ps).flatten : List Rect)
              = p :: (Pr ++ Ps.flatten) := by simp
          rw [hflat, List.foldl_cons, hstep, List.foldl_append,
            foldl_cluster_within tol htol k Pr (rows ++ [c :: cs]) [p] (by simp)
              (by intro r hr; simpa [List.mem_singleton.mp hr] using hkp)
              (fun r hr => hPk r (by simp [hr]))]
          have hch2 : ks2.Chain' (fun a b => tol < b - a) := hchain.tail
          have hgap2 : ∀ k0, ks2.head? = some k0 → tol < k0 - k := by
            intro k0 hk0
            cases ks2 with
            | nil => simp at hk0
            | cons k1 kr =>
                have := List.chain'_cons.mp hchain
                simp at hk0
                simpa [hk0] using this.1
          rw [ih ks2 hrest hch2 (rows ++ [c :: cs]) ([p] ++ Pr) k (by simp)
            (by intro r hr
                rcases List.mem_append.mp hr with h1 | h1
                · simpa [List.mem_singleton.mp h1] using hkp
                · exact hPk r (by simp [h1]))
            hgap2]
          simp

/-- In a key-sorted list whose keys all sit at or above k, the elements
with key exactly k form a prefix whose length is their count. -/
theorem sorted_min_prefix (key : Rect → ℚ) (k : ℚ) :
    ∀ l : List Rect, l.Pairwise (fun a b => key a ≤ key b) →
      (∀ x ∈ l, key x = k ∨ k < key x) →
      (∀ x ∈ l.take (l.countP (fun x => key x == k)), key x = k)
      ∧ (∀ x ∈ l.drop (l.countP (fun x => key x == k)), k < key x) := by
  intro l
  induction l with
  | nil => simp
  | cons a t ih =>
    intro hp hor
    have hpt : t.Pairwise (fun a b => key a ≤ key b) := hp.of_cons
    by_cases ha : key a = k
    · have hcnt : (a :: t).countP (fun x => key x == k)
          = t.countP (fun x => key x == k) + 1 := by
        rw [List.countP_cons]
        simp [ha]
      obtain ⟨h1, h2⟩ := ih hpt (fun x hx => hor x (by simp [hx]))
      rw [hcnt]
      constructor
      · intro x hx
        rw [List.take_succ_cons] at hx
        rcases List.mem_cons.mp hx with rfl | hx
        · exact ha
        · exact h1 x hx
      · intro x hx
        rw [List.drop_succ_cons] at hx
        exact h2 x hx
    · have hk : k < key a := (hor a (by simp)).resolve_left ha
      have hall : ∀ x ∈ a :: t, k < key x := by
        intro x hx
        rcases List.mem_cons.mp hx with rfl | hx
        · exact hk
        · exact lt_of_lt_of_le hk ((List.pairwise_cons.mp hp).1 x hx)
      have hcnt : (a :: t).countP (fun x => key x == k) = 0 := by
        rw [List.countP_eq_zero]
        intro x hx
        simpa using (hall x hx).ne'
      rw [hcnt]
      exact ⟨by simp, by simpa using hall⟩

/-- Every element of the flattened tail chunks has key above k when the
chunk keys all exceed k. -/
theorem flatten_keys_gt (key : Rect → ℚ) (k : ℚ) :
    ∀ (rows : List (List Rect)) (ks : List ℚ),
      List.Forall₂ (fun A kk => ∀ r ∈ A, key r = kk) rows ks →
      (∀ kk ∈ ks, k < kk) →
      ∀ r ∈ rows.flatten, k < key r := by
  intro rows ks hf
  induction hf with
  | nil => intro _ r hr; simp at hr
  | @cons A kk rows2 ks2 hAk hrest ih =>
    intro hks r hr
    rw [List.flatten_cons] at hr
    rcases List.mem_append.mp hr with h1 | h1
    · rw [hAk r h1]
      exact hks kk (by simp)
    · exact ih (fun kk2 hk2 => hks kk2 (by simp [hk2])) r h1

/-- A key-sorted permutation of a concatenation of constant-key chunks
with strictly increasing keys decomposes into a concatenation of
permutations of those chunks, in the same order. -/
theorem sorted_perm_chunks (key : Rect → ℚ) :
    ∀ (rows : List (List Rect)) (ks : List ℚ),
      List.Forall₂ (fun A kk => ∀ r ∈ A, key r = kk) rows ks →
      ks.Pairwise (· < ·) →
      ∀ (l : List Rect), l ~ rows.flatten → l.Pairwise (fun a b => key a ≤ key b) →
      ∃ parts : List (List Rect),
        l = parts.flatten ∧ List.Forall₂ (· ~ ·) parts rows := by
  intro rows ks hf
  induction hf with
  | nil =>
    intro _ l hl _
    refine ⟨[], ?_, List.Forall₂.nil⟩
    simpa using hl.eq_nil
  | @cons A kk rows2 ks2 hAk hrest ih =>
    intro hks l hl hp
    have hks2 : ks2.Pairwise (· < ·) := hks.of_cons
    have hkk_lt : ∀ k2 ∈ ks2, kk < k2 := (List.pairwise_cons.mp hks).1
    have hor : ∀ x ∈ l, key x = kk ∨ kk < key x := by
      intro x hx
      have hx2 : x ∈ A ++ rows2.flatten := by
        have := hl.mem_iff.mp hx
        simpa using this
      rcases List.mem_append.mp hx2 with h1 | h1
      · exact Or.inl (hAk x h1)
      · exact Or.inr (flatten_keys_gt key kk rows2 ks2 hrest hkk_lt x h1)
    obtain ⟨htake, hdrop⟩ := sorted_min_prefix key kk l hp hor
    have hcntA : A.countP (fun x => key x == kk) = A.length := by
      rw [List.countP_eq_length]
      intro x hx
      simp [hAk x hx]
    have hcntF : rows2.flatten.countP (fun x => key x == kk) = 0 := by
      rw [List.countP_eq_zero]
      intro x hx
      simpa using (flatten_keys_gt key kk rows2 ks2 hrest hkk_lt x hx).ne'
    have hnA : l.countP (fun x => key x == kk) = A.length := by
      rw [hl.countP_eq]
      simpa [List.countP_append, hcntF] using hcntA
    have hfA : A.filter (fun x => key x == kk) = A :=
      List.filter_eq_self.mpr (fun x hx => by simp [hAk x hx])
    have hfF : rows2.flatten.filter (fun x => key x == kk) = [] :=
      List.filter_eq_nil_iff.mpr
        (fun x hx => by
          simpa using (flatten_keys_gt key kk rows2 ks2 hrest hkk_lt x hx).ne')
    have hfl : l.filter (fun x => key x == kk)
        = l.take (l.countP (fun x => key x == kk)) := by
      conv_lhs => rw [← List.take_append_drop (l.countP (fun x => key x == kk)) l]
      rw [List.filter_append,
        List.filter_eq_self.mpr (fun x hx => by simp [htake x hx]),
        List.filter_eq_nil_iff.mpr (fun x hx => by simpa using (hdrop x hx).ne'),
        List.append_nil]
    have htakeA : l.take (l.countP (fun x => key x == kk)) ~ A := by
      rw [← hfl]
      have hpf := hl.filter (fun x => key x == kk)
      simpa [List.filter_append, hfA, hfF] using hpf
    have hdropP : l.drop (l.countP (fun x => key x == kk)) ~ rows2.flatten := by
      have h1 : l.take (l.countP (fun x => key x == kk))
          ++ l.drop (l.countP (fun x => key x == kk)) ~ A ++ rows2.flatten := by
        rw [List.take_append_drop]
        simpa using hl
      have h2 : A ++ l.drop (l.countP (fun x => key x == kk)) ~ A ++ rows2.flatten :=
        ((htakeA.append_right (l.drop (l.countP (fun x => key x == kk)))).symm).trans h1
      exact (List.perm_append_left_iff A).mp h2
    have hdropSorted : (l.drop (l.countP (fun x => key x == kk))).Pairwise
        (fun a b => key a ≤ key b) :=
      List.Pairwise.sublist (List.drop_sublist _ _) hp
    obtain ⟨parts2, hflat2, hf2⟩ := ih hks2 _ hdropP hdropSorted
    refine ⟨l.take (l.countP (fun x => key x == kk)) :: parts2, ?_,
      List.Forall₂.cons htakeA hf2⟩
    rw [List.flatten_cons, ← hflat2, List.take_append_drop]

/-- A key-sorted permutation of a strictly key-sorted list is that list:
sorting output is unique once the reference keys are pairwise distinct. -/
theorem eq_of_perm_sorted_strict (key : Rect → ℚ) :
    ∀ (l₂ l₁ : List Rect), l₁ ~ l₂ →
      l₁.Pairwise (fun a b => key a ≤ key b) →
      l₂.Pairwise (fun a b => key a < key b) →
      l₁ = l₂ := by
  intro l₂
  induction l₂ with
  | nil => intro l₁ hp _ _; exact hp.eq_nil
  | cons b t₂ ih =>
    intro l₁ hp hs₁ hs₂
    match l₁, hp with
    | [], hp => exact absurd hp.symm.eq_nil (by simp)
    | a :: t₁, hp =>
      by_cases hab : a = b
      · subst hab
        rw [ih t₁ hp.cons_inv hs₁.of_cons hs₂.of_cons]
      · exfalso
        have hbl : b ∈ a :: t₁ := hp.mem_iff.mpr (by simp)
        have hal : a ∈ b :: t₂ := hp.mem_iff.mp (by simp)
        have hb1 : b ∈ t₁ := by
          rcases List.mem_cons.mp hbl with h1 | h1
          · exact absurd h1.symm hab
          · exact h1
        have ha2 : a ∈ t₂ := by
          rcases List.mem_cons.mp hal with h1 | h1
          · exact absurd h1 hab
          · exact h1
        have h1 : key a ≤ key b := (List.pairwise_cons.mp hs₁).1 b hb1
        have h2 : key b < key a := (List.pairwise_cons.mp hs₂).1 a ha2
        exact absurd h1 (not_le.mpr h2)

/-- Sorting a permutation of a strictly x-sorted row reproduces that
row. -/
theorem sortRow_eq_of_perm (P A : List Rect) (hperm : P ~ A)
    (hs : A.Pairwise (fun a b => centerXq a < centerXq b)) :
    sortRowByCx P = A := by
  apply eq_of_perm_sorted_strict centerXq A
  · exact (List.mergeSort_perm P _).trans hperm
  · have hsm := @List.sorted_mergeSort Rect
      (fun a b => decide (centerXq a ≤ centerXq b))
      (by intro a b c h1 h2
          simp only [decide_eq_true_eq] at h1 h2 ⊢
          exact le_trans h1 h2)
      (by intro a b
          simpa using le_total (centerXq a) (centerXq b)) P
    exact hsm.imp (by intro a b hab; simpa using hab)
  · exact hs

/-- Row-wise sorting of chunk permutations of strictly x-sorted rows
reproduces the rows. -/
theorem map_sortRow_eq :
    ∀ {parts rows : List (List Rect)},
      List.Forall₂ (· ~ ·) parts rows →
      (∀ A ∈ rows, A.Pairwise (fun a b => centerXq a < centerXq b)) →
      parts.map sortRowByCx = rows := by
  intro parts rows h1
  induction h1 with
  | nil => intro _; rfl
  | @cons P A parts2 rows2 hab h' ih =>
    intro hs
    simp only [List.map_cons]
    rw [sortRow_eq_of_perm P A hab (hs A (by simp)),
      ih (fun B hB => hs B (by simp [hB]))]

/-- Chunkwise conditions transfer across chunkwise permutations. -/
theorem forall₂_perm_trans {γ : Type} (Rc : List Rect → γ → Prop)
    (hmono : ∀ (A B : List Rect) (k : γ), A ~ B → Rc B k → Rc A k) :
    ∀ {parts rows : List (List Rect)} {ks : List γ},
      List.Forall₂ (· ~ ·) parts rows → List.Forall₂ Rc rows ks →
      List.Forall₂ Rc parts ks := by
  intro parts rows ks h1
  induction h1 generalizing ks with
  | nil =>
    intro h2
    cases h2
    exact .nil
  | cons hab h1' ih =>
    intro h2
    cases h2 with
    | cons hbk h2' => exact .cons (hmono _ _ _ hab hbk) (ih h2')

/-- Clustering over a flattened chunk list with over-tolerance gaps
between the constant chunk centers returns exactly the chunks. -/
theorem clusterRows_chunks (tol : ℚ) (htol : 0 ≤ tol)
    (parts : List (List Rect)) (ks : List ℚ)
    (hf : List.Forall₂ (fun P k => P ≠ [] ∧ ∀ r ∈ P, centerYq r = k) parts ks)
    (hchain : ks.Chain' (fun a b => tol < b - a)) (hne : parts ≠ []) :
    clusterRows tol parts.flatten = parts := by
  cases hf with
  | nil => exact absurd rfl hne
  | @cons P k Ps ks2 hPk hrest =>
    obtain ⟨hPne, hPc⟩ := hPk
    match P, hPne, hPc with
    | p :: Pr, _, hPc =>
      unfold clusterRows
      rw [show ((p :: Pr) :: Ps).flatten = p :: (Pr ++ Ps.flatten) by simp]
      rw [List.foldl_cons]
      rw [show clusterStep tol ([], []) p = ([], [p]) from rfl]
      rw [List.foldl_append,
        foldl_cluster_within tol htol k Pr [] [p] (by simp)
          (by intro r hr
              simpa [List.mem_singleton.mp hr] using hPc p (by simp))
          (fun r hr => hPc r (by simp [hr]))]
      have hgap : ∀ k0, ks2.head? = some k0 → tol < k0 - k := by
        intro k0 hk0
        cases ks2 with
        | nil => simp at hk0
        | cons k1 kr =>
          have hcc := List.chain'_cons.mp hchain
          simp only [List.head?_cons, Option.some.injEq] at hk0
          simpa [hk0] using hcc.1
      have := foldl_cluster_chunks tol htol Ps ks2 hrest hchain.tail
        [] ([p] ++ Pr) k (by simp)
        (by intro r hr
            rcases List.mem_append.mp hr with h1 | h1
            · simpa [List.mem_singleton.mp h1] using hPc p (by simp)
            · exact hPc r (by simp [h1]))
        hgap
      simpa using this

/-- Vertical center of a grid rectangle is its row key. -/
theorem centerYq_gridRect (x0 y0 px py w h : ℤ) (rw cl : ℕ) :
    centerYq (gridRect x0 y0 px py w h rw cl) = rowKey y0 py h rw := rfl

/-- Horizontal center of a grid rectangle. -/
theorem centerXq_gridRect (x0 y0 px py w h : ℤ) (rw cl : ℕ) :
    centerXq (gridRect x0 y0 px py w h rw cl)
      = ((x0 + (cl : ℤ) * px : ℤ) : ℚ) + (w : ℚ) / 2 := rfl

/-- Forall₂ between two maps over one index list. -/
theorem forall₂_map_map {α γ : Type} (l : List α) (f : α → List Rect)
    (g : α → γ) (Rc : List Rect → γ → Prop) (h : ∀ a ∈ l, Rc (f a) (g a)) :
    List.Forall₂ Rc (l.map f) (l.map g) := by
  induction l with
  | nil => exact .nil
  | cons a t ih =>
    exact .cons (h a (by simp)) (ih (fun b hb => h b (by simp [hb])))

/-- Row keys grow from row to row by at least the vertical pitch, which
beats the 0.7-height tolerance. -/
theorem rowKey_gap (y0 py h : ℤ) (hh : 0 < h) (hpy : h ≤ py) (i j : ℕ)
    (hij : i < j) :
    (7 : ℚ) / 10 * (h : ℚ) < rowKey y0 py h j - rowKey y0 py h i := by
  unfold rowKey
  push_cast
  have h1 : (i : ℚ) + 1 ≤ (j : ℚ) := by exact_mod_cast hij
  have hpy' : (h : ℚ) ≤ (py : ℚ) := by exact_mod_cast hpy
  have hh' : (0 : ℚ) < (h : ℚ) := by exact_mod_cast hh
  have hpy0 : (0 : ℚ) < (py : ℚ) := lt_of_lt_of_le hh' hpy'
  have h2 : (1 : ℚ) * (py : ℚ) ≤ ((j : ℚ) - (i : ℚ)) * (py : ℚ) :=
    mul_le_mul_of_nonneg_right (by linarith) hpy0.le
  nlinarith

/-- Row keys are strictly increasing. -/
theorem rowKey_strictMono (y0 py h : ℤ) (hpy : 0 < py) (i j : ℕ)
    (hij : i < j) : rowKey y0 py h i < rowKey y0 py h j := by
  unfold rowKey
  push_cast
  have h1 : (i : ℚ) + 1 ≤ (j : ℚ) := by exact_mod_cast hij
  have hpy' : (0 : ℚ) < (py : ℚ) := by exact_mod_cast hpy
  nlinarith

/-- Every member of a grid row has that row's key as vertical center. -/
theorem gridRow_centerYq (x0 y0 px py w h : ℤ) (C rw : ℕ) :
    ∀ r ∈ gridRow x0 y0 px py w h C rw, centerYq r = rowKey y0 py h rw := by
  intro r hr
  obtain ⟨cl, _, rfl⟩ := List.mem_map.mp hr
  rfl

/-- A grid row is strictly sorted by horizontal center. -/
theorem gridRow_strict_cx (x0 y0 px py w h : ℤ) (hw : 0 < w) (hpx : w ≤ px)
    (C rw : ℕ) :
    (gridRow x0 y0 px py w h C rw).Pairwise
      (fun a b => centerXq a < centerXq b) := by
  unfold gridRow
  rw [List.pairwise_map]
  apply List.Pairwise.imp ?_ (List.pairwise_lt_range C)
  intro i j hij
  rw [centerXq_gridRect, centerXq_gridRect]
  push_cast
  have h1 : (i : ℚ) + 1 ≤ (j : ℚ) := by exact_mod_cast hij
  have hw' : (0 : ℚ) < (w : ℚ) := by exact_mod_cast hw
  have hpx' : (w : ℚ) ≤ (px : ℚ) := by exact_mod_cast hpx
  nlinarith

/-- Every rectangle of the grid has the common height. -/
theorem gridList_height (x0 y0 px py w h : ℤ) (R C : ℕ) :
    ∀ r ∈ gridList x0 y0 px py w h R C, r.h = h := by
  intro r hr
  obtain ⟨A, hA, hrA⟩ := List.mem_flatten.mp hr
  obtain ⟨rw, _, rfl⟩ := List.mem_map.mp hA
  obtain ⟨cl, _, rfl⟩ := List.mem_map.mp hrA
  rfl

/-- Claim C7: for regions laid out as a perfect R x C grid with uniform
cell size (pitches at least the common width and height, so cells do not
overlap), sort_reading_order returns exactly row-major order — row 0 left
to right, then row 1, and so on — whatever order the regions arrive in. -/
theorem reading_order_grid (x0 y0 px py w h : ℤ) (R C : ℕ)
    (hR : 0 < R) (hC : 0 < C) (hw : 0 < w) (hh : 0 < h)
    (hpx : w ≤ px) (hpy : h ≤ py)
    (l : List Rect) (hl : l ~ gridList x0 y0 px py w h R C) :
    sortReadingOrder l = gridList x0 y0 px py w h R C := by
  have hpy0 : 0 < py := lt_of_lt_of_le hh hpy
  have hmem0 : gridRect x0 y0 px py w h 0 0 ∈ gridList x0 y0 px py w h R C := by
    unfold gridList
    rw [List.mem_flatten]
    exact ⟨gridRow x0 y0 px py w h C 0,
      List.mem_map.mpr ⟨0, List.mem_range.mpr hR, rfl⟩,
      List.mem_map.mpr ⟨0, List.mem_range.mpr hC, rfl⟩⟩
  have hlne : l ≠ [] := by
    intro h0
    rw [h0] at hl
    rw [hl.symm.eq_nil] at hmem0
    simp at hmem0
  rw [sortReadingOrder, if_neg (by simpa using hlne)]
  show ((clusterRows ((7 : ℚ) / 10 * avgHeight (sortByCy l)) (sortByCy l)).map
      sortRowByCx).flatten = gridList x0 y0 px py w h R C
  have hsp : sortByCy l ~ gridList x0 y0 px py w h R C :=
    (List.mergeSort_perm l _).trans hl
  have hss : (sortByCy l).Pairwise (fun a b => centerYq a ≤ centerYq b) := by
    have hsm := @List.sorted_mergeSort Rect
      (fun a b => decide (centerYq a ≤ centerYq b))
      (by intro a b c h1 h2
          simp only [decide_eq_true_eq] at h1 h2 ⊢
          exact le_trans h1 h2)
      (by intro a b
          simpa using le_total (centerYq a) (centerYq b)) l
    exact hsm.imp (by intro a b hab; simpa using hab)
  have hsne : sortByCy l ≠ [] := by
    intro h0
    rw [h0] at hsp
    rw [hsp.symm.eq_nil] at hmem0
    simp at hmem0
  have havg : avgHeight (sortByCy l) = (h : ℚ) := by
    unfold avgHeight
    exact mean_const_key (fun r => (r.h : ℚ)) (h : ℚ) (sortByCy l) hsne
      (fun r hr => by
        have hrh := gridList_height x0 y0 px py w h R C r (hsp.mem_iff.mp hr)
        simp [hrh])
  rw [havg]
  have hfrows : List.Forall₂ (fun A kk => ∀ r ∈ A, centerYq r = kk)
      ((List.range R).map (gridRow x0 y0 px py w h C))
      ((List.range R).map (rowKey y0 py h)) :=
    forall₂_map_map (List.range R) _ _ _
      (fun rw _ => gridRow_centerYq x0 y0 px py w h C rw)
  have hks : ((List.range R).map (rowKey y0 py h)).Pairwise (· < ·) := by
    rw [List.pairwise_map]
    exact List.Pairwise.imp
      (fun hij => rowKey_strictMono y0 py h hpy0 _ _ hij)
      (List.pairwise_lt_range R)
  obtain ⟨parts, hpf, hparts⟩ := sorted_perm_chunks centerYq
    ((List.range R).map (gridRow x0 y0 px py w h C))
    ((List.range R).map (rowKey y0 py h)) hfrows hks (sortByCy l)
    hsp hss
  have htol : (0 : ℚ) ≤ (7 : ℚ) / 10 * (h : ℚ) := by
    have : (0 : ℚ) < (h : ℚ) := by exact_mod_cast hh
    positivity
  have hcond : List.Forall₂ (fun P k => P ≠ [] ∧ ∀ r ∈ P, centerYq r = k)
      parts ((List.range R).map (rowKey y0 py h)) := by
    apply forall₂_perm_trans _ ?_ hparts
    · apply forall₂_map_map
      intro rw _
      refine ⟨?_, gridRow_centerYq x0 y0 px py w h C rw⟩
      unfold gridRow
      simp only [ne_eq, List.map_eq_nil_iff, List.range_eq_nil]
      omega
    · intro A B k hab hcond2
      refine ⟨?_, fun r hr => hcond2.2 r (hab.mem_iff.mp hr)⟩
      intro h0
      rw [h0] at hab
      exact hcond2.1 hab.symm.eq_nil
  have hchain : ((List.range R).map (rowKey y0 py h)).Chain'
      (fun a b => (7 : ℚ) / 10 * (h : ℚ) < b - a) := by
    apply List.Pairwise.chain'
    rw [List.pairwise_map]
    exact List.Pairwise.imp
      (fun hij => rowKey_gap y0 py h hh hpy _ _ hij)
      (List.pairwise_lt_range R)
  have hpne : parts ≠ [] := by
    intro h0
    have := hparts.length_eq
    rw [h0] at this
    simp at this
    omega
  have hcluster : clusterRows ((7 : ℚ) / 10 * (h : ℚ)) (sortByCy l) = parts := by
    rw [hpf]
    exact clusterRows_chunks _ htol parts _ hcond hchain hpne
  rw [hcluster,
    map_sortRow_eq hparts
      (by intro A hA
          obtain ⟨rw, _, rfl⟩ := List.mem_map.mp hA
          exact gridRow_strict_cx x0 y0 px py w h hw hpx C rw)]
  rfl

/-- Witness for reading_order_grid: a 2 x 2 grid handed to the sorter in
reversed discovery order comes back row-major. -/
theorem reading_order_grid_witness :
    sortReadingOrder ((gridList 0 0 10 10 10 10 2 2).reverse)
      = gridList 0 0 10 10 10 10 2 2 :=
  reading_order_grid 0 0 10 10 10 10 2 2 (by decide) (by decide) (by decide)
    (by decide) (by decide) (by decide)
    ((gridList 0 0 10 10 10 10 2 2).reverse) (by decide)

/-- A Python read of a valid nonnegative index succeeds. -/
theorem pyGet_ok {α : Type} (l : List α) (i : ℤ) (h0 : 0 ≤ i)
    (hl : i < (l.length : ℤ)) : ∃ a, pyGet l i = .ok a ∧ l[i.toNat]? = some a := by
  have hki : i.toNat < l.length := by omega
  refine ⟨l.get ⟨i.toNat, hki⟩, ?_, ?_⟩
  · unfold pyGet pyIdx
    rw [if_pos ⟨h0, hl⟩]
    simp [List.getElem?_eq_getElem hki]
  · simp [List.getElem?_eq_getElem hki]

/-- A Python read of a nonnegative index at or past the length raises. -/
theorem pyGet_err {α : Type} (l : List α) (i : ℤ) (h0 : 0 ≤ i)
    (hl : (l.length : ℤ) ≤ i) : pyGet l i = .error () := by
  unfold pyGet pyIdx
  rw [if_neg (by omega), if_neg (by omega)]

/-- Writes through visSetZ keep the grid shape. -/
theorem except_bind_ok {α β : Type} (a : α) (f : α → Except Unit β) :
    (Except.ok a >>= f) = f a := rfl

/-- Bind on an error short-circuits. -/
theorem except_bind_err {α β : Type} (e : Unit) (f : α → Except Unit β) :
    ((Except.error e : Except Unit α) >>= f) = Except.error e := rfl

/-- Pure is ok. -/
theorem except_pure_ok {α : Type} (a : α) :
    (pure a : Except Unit α) = Except.ok a := rfl

/-- Writes through visSetZ keep the grid shape. -/
theorem visSetZ_shape (img : Img) (vis : List (List Bool)) (y x : ℤ) (b : Bool)
    (hs : VShape img vis) : VShape img (visSetZ vis y x b) := by
  obtain ⟨h1, h2⟩ := hs
  unfold visSetZ
  cases pyIdx vis.length y with
  | none => exact ⟨h1, h2⟩
  | some yi =>
    show VShape img (match vis[yi]? with
      | some row =>
        match pyIdx row.length x with
        | some xi => vis.set yi (row.set xi b)
        | none => vis
      | none => vis)
    cases hrow : vis[yi]? with
    | none => exact ⟨h1, h2⟩
    | some row =>
      show VShape img (match pyIdx row.length x with
        | some xi => vis.set yi (row.set xi b)
        | none => vis)
      cases pyIdx row.length x with
      | none => exact ⟨h1, h2⟩
      | some xi =>
        show VShape img (vis.set yi (row.set xi b))
        refine ⟨by simpa using h1, ?_⟩
        intro r hr
        rcases List.mem_or_eq_of_mem_set hr with h3 | h3
        · exact h2 r h3
        · rw [h3, List.length_set]
          exact h2 row (List.getElem?_mem hrow)

/-- Neighbour steps keep the grid shape. -/
theorem tryNeighbor_shape (img : Img) (bg : Pixel) (t : ℕ) (p : ℤ × ℤ)
    (st : BfsState) (d : ℤ × ℤ) (hs : VShape img st.visited) :
    VShape img (tryNeighbor img bg t p st d).visited := by
  simp only [tryNeighbor]
  split
  · split
    · exact hs
    · split
      · exact visSetZ_shape img st.visited _ _ true hs
      · exact hs
  · exact hs

/-- Processing the eight neighbours keeps the grid shape. -/
theorem visitNeighbors_shape (img : Img) (bg : Pixel) (t : ℕ) (p : ℤ × ℤ)
    (st : BfsState) (hs : VShape img st.visited) :
    VShape img (visitNeighbors img bg t p st).visited := by
  unfold visitNeighbors
  generalize neighborOffsets = ds
  induction ds generalizing st with
  | nil => exact hs
  | cons d ds ih =>
    rw [List.foldl_cons]
    exact ih _ (tryNeighbor_shape img bg t p st d hs)

/-- The BFS loop keeps the grid shape. -/
theorem bfsLoop_shape (img : Img) (bg : Pixel) (t : ℕ) :
    ∀ (fuel : ℕ) (st : BfsState), VShape img st.visited →
      VShape img (bfsLoop img bg t fuel st).visited := by
  intro fuel
  induction fuel with
  | zero => intro st hs; exact hs
  | succ n ih =>
    intro st hs
    unfold bfsLoop
    match st.queue with
    | [] => exact hs
    | (x, y) :: rest =>
      exact ih _ (visitNeighbors_shape img bg t (x, y) _ hs)

/-- The flood fill keeps the grid shape. -/
theorem findSpriteRegion_shape (img : Img) (bg : Pixel) (t : ℕ) (sx sy : ℤ)
    (vis : List (List Bool)) (hs : VShape img vis) :
    VShape img (findSpriteRegion img bg t sx sy vis).2 := by
  unfold findSpriteRegion
  exact bfsLoop_shape img bg t _ _ (visSetZ_shape img vis sy sx true hs)

/-- A successful pixel scan keeps the grid shape, never touches the
progress list, and can only append to the rectangle list. -/
theorem scanPixel_shape (img : Img) (bg : Pixel) (t : ℕ) (y : ℤ)
    (st : DetState) (x : ℤ) (st' : DetState)
    (h : scanPixel img bg t y st x = .ok st') (hs : VShape img st.visited) :
    VShape img st'.visited ∧ st'.progress = st.progress := by
  unfold scanPixel at h
  cases h1 : pyGet st.visited y with
  | error e => rw [h1, except_bind_err] at h; simp at h
  | ok row =>
    rw [h1, except_bind_ok] at h
    cases h2 : pyGet row x with
    | error e => rw [h2, except_bind_err] at h; simp at h
    | ok v =>
      rw [h2, except_bind_ok] at h
      by_cases hv : v = true
      · rw [if_pos hv, except_pure_ok] at h
        cases h
        exact ⟨hs, rfl⟩
      · rw [if_neg hv] at h
        cases h3 : pixGet img x y with
        | error e => rw [h3, except_bind_err] at h; simp at h
        | ok c =>
          rw [h3, except_bind_ok] at h
          by_cases hc : 128 < c.a ∧ ¬ isBackground c bg t = true
          · rw [if_pos hc] at h
            have hv2 : VShape img (findSpriteRegion img bg t x y st.visited).2 :=
              findSpriteRegion_shape img bg t x y st.visited hs
            cases h4 : findSpriteRegion img bg t x y st.visited with
            | mk o vis2 =>
              rw [h4] at h hv2
              cases o with
              | some r =>
                obtain rfl := (Except.ok.inj h).symm
                exact ⟨hv2, rfl⟩
              | none =>
                obtain rfl := (Except.ok.inj h).symm
                exact ⟨hv2, rfl⟩
          · rw [if_neg hc, except_pure_ok] at h
            cases h
            exact ⟨hs, rfl⟩

/-- Membership in a Python int range. -/
theorem mem_intRange {a b x : ℤ} : x ∈ intRange a b ↔ a ≤ x ∧ x < b := by
  unfold intRange
  simp only [List.mem_map, List.mem_range]
  constructor
  · rintro ⟨k, hk, rfl⟩
    omega
  · rintro ⟨h1, h2⟩
    exact ⟨(x - a).toNat, by omega, by omega⟩

/-- An in-bounds pixel scan succeeds, keeps the grid shape and leaves
the progress list untouched. -/
theorem scanPixel_ok (img : Img) (bg : Pixel) (t : ℕ) (y x : ℤ)
    (st : DetState) (hx : 0 ≤ x) (hx2 : x < (img.width : ℤ)) (hy : 0 ≤ y)
    (hy2 : y < (img.height : ℤ)) (hs : VShape img st.visited) :
    ∃ st', scanPixel img bg t y st x = .ok st' ∧ VShape img st'.visited ∧
      st'.progress = st.progress := by
  obtain ⟨row, hrow, hrowget⟩ := pyGet_ok st.visited y hy (by rw [hs.1]; exact hy2)
  have hrlen : row.length = img.width := hs.2 row (List.getElem?_mem hrowget)
  obtain ⟨v, hv, _⟩ := pyGet_ok row x hx (by rw [hrlen]; exact hx2)
  unfold scanPixel
  rw [hrow, except_bind_ok, hv, except_bind_ok]
  by_cases hvb : v = true
  · rw [if_pos hvb, except_pure_ok]
    exact ⟨st, rfl, hs, rfl⟩
  · rw [if_neg hvb]
    have hpix : pixGet img x y = .ok (img.pix x.toNat y.toNat) := by
      unfold pixGet pyIdx
      rw [if_pos ⟨hx, hx2⟩, if_pos ⟨hy, hy2⟩]
    rw [hpix, except_bind_ok]
    by_cases hc : 128 < (img.pix x.toNat y.toNat).a ∧
        ¬ isBackground (img.pix x.toNat y.toNat) bg t = true
    · rw [if_pos hc]
      have hv2 := findSpriteRegion_shape img bg t x y st.visited hs
      cases h4 : findSpriteRegion img bg t x y st.visited with
      | mk o vis2 =>
        rw [h4] at hv2
        cases o with
        | some r => exact ⟨_, rfl, hv2, rfl⟩
        | none => exact ⟨_, rfl, hv2, rfl⟩
    · rw [if_neg hc, except_pure_ok]
      exact ⟨st, rfl, hs, rfl⟩

/-- Folding an in-bounds pixel list succeeds, keeps the shape and the
progress. -/
theorem scanRow_pixels_ok (img : Img) (bg : Pixel) (t : ℕ) (y : ℤ)
    (hy : 0 ≤ y) (hy2 : y < (img.height : ℤ)) :
    ∀ (xs : List ℤ), (∀ x ∈ xs, 0 ≤ x ∧ x < (img.width : ℤ)) →
    ∀ (st : DetState), VShape img st.visited →
      ∃ st', xs.foldlM (scanPixel img bg t y) st = .ok st'
        ∧ VShape img st'.visited ∧ st'.progress = st.progress := by
  intro xs
  induction xs with
  | nil => intro _ st hs; exact ⟨st, rfl, hs, rfl⟩
  | cons a l ih =>
    intro hxs st hs
    obtain ⟨st1, h1, hs1, hp1⟩ := scanPixel_ok img bg t y a st
      (hxs a (by simp)).1 (hxs a (by simp)).2 hy hy2 hs
    obtain ⟨st2, h2, hs2, hp2⟩ := ih (fun x hx => hxs x (by simp [hx])) st1 hs1
    refine ⟨st2, ?_, hs2, by rw [hp2, hp1]⟩
    rw [List.foldlM_cons, h1, except_bind_ok]
    exact h2

/-- Folding in-bounds rows of an x-in-bounds area succeeds and appends
exactly one progress value per row. -/
theorem scanArea_rows_ok (img : Img) (bg : Pixel) (t : ℕ) (ax aw : ℤ)
    (hx : 0 ≤ ax) (hxw : ax + aw ≤ (img.width : ℤ)) :
    ∀ (ys : List ℤ), (∀ y ∈ ys, 0 ≤ y ∧ y < (img.height : ℤ)) →
    ∀ (st : DetState), VShape img st.visited →
      ∃ st', ys.foldlM
          (fun s y => do
            let s2 ← (intRange ax (ax + aw)).foldlM (scanPixel img bg t y) s
            pure { s2 with
              progress := s2.progress ++ [Int.tdiv (100 * y) (img.height : ℤ)] })
          st = .ok st'
        ∧ VShape img st'.visited
        ∧ st'.progress = st.progress
            ++ ys.map (fun y => Int.tdiv (100 * y) (img.height : ℤ)) := by
  intro ys
  induction ys with
  | nil => intro _ st hs; exact ⟨st, rfl, hs, by simp⟩
  | cons y0 l ih =>
    intro hys st hs
    obtain ⟨st1, h1, hs1, hp1⟩ := scanRow_pixels_ok img bg t y0
      (hys y0 (by simp)).1 (hys y0 (by simp)).2 (intRange ax (ax + aw))
      (fun x hx2 => by
        have := mem_intRange.mp hx2
        omega) st hs
    obtain ⟨st2, h2, hs2, hp2⟩ := ih (fun y hy => hys y (by simp [hy]))
      { st1 with progress := st1.progress ++ [Int.tdiv (100 * y0) (img.height : ℤ)] }
      hs1
    refine ⟨st2, ?_, hs2, ?_⟩
    · rw [List.foldlM_cons]
      rw [show ((do
          let s2 ← (intRange ax (ax + aw)).foldlM (scanPixel img bg t y0) st
          pure { s2 with
            progress := s2.progress ++ [Int.tdiv (100 * y0) (img.height : ℤ)] }) :
          Except Unit DetState)
        = Except.ok { st1 with
            progress := st1.progress ++ [Int.tdiv (100 * y0) (img.height : ℤ)] } by
          rw [h1, except_bind_ok, except_pure_ok]]
      rw [except_bind_ok]
      exact h2
    · rw [hp2]
      simp [hp1]

/-- A fully in-bounds area scan succeeds and appends one progress value
per row of the area. -/
theorem scanArea_ok (img : Img) (bg : Pixel) (t : ℕ) (st : DetState)
    (area : Rect) (hin : 0 ≤ area.x ∧ 0 ≤ area.y ∧
      area.x + area.w ≤ (img.width : ℤ) ∧ area.y + area.h ≤ (img.height : ℤ))
    (hs : VShape img st.visited) :
    ∃ st', scanArea img bg t st area = .ok st' ∧ VShape img st'.visited ∧
      st'.progress = st.progress ++ (intRange area.y (area.y + area.h)).map
        (fun y => Int.tdiv (100 * y) (img.height : ℤ)) := by
  unfold scanArea
  exact scanArea_rows_ok img bg t area.x area.w hin.1 hin.2.2.1
    (intRange area.y (area.y + area.h))
    (fun y hy => by
      have := mem_intRange.mp hy
      omega) st hs

/-- Scanning a list of fully in-bounds areas succeeds and emits the
concatenation of the per-area progress chunks. -/
theorem detect_areas_ok (img : Img) (bg : Pixel) (t : ℕ) :
    ∀ (areas : List Rect) (st : DetState), VShape img st.visited →
      (∀ a ∈ areas, 0 ≤ a.x ∧ 0 ≤ a.y ∧
        a.x + a.w ≤ (img.width : ℤ) ∧ a.y + a.h ≤ (img.height : ℤ)) →
      ∃ st', areas.foldlM (scanArea img bg t) st = .ok st'
        ∧ VShape img st'.visited
        ∧ st'.progress = st.progress ++ (areas.map (fun a =>
            (intRange a.y (a.y + a.h)).map
              (fun y => Int.tdiv (100 * y) (img.height : ℤ)))).flatten := by
  intro areas
  induction areas with
  | nil => intro st hs _; exact ⟨st, rfl, hs, by simp⟩
  | cons a l ih =>
    intro st hs hin
    obtain ⟨st1, h1, hs1, hp1⟩ := scanArea_ok img bg t st a (hin a (by simp)) hs
    obtain ⟨st2, h2, hs2, hp2⟩ := ih st1 hs1 (fun b hb => hin b (by simp [hb]))
    refine ⟨st2, ?_, hs2, ?_⟩
    · rw [List.foldlM_cons, h1, except_bind_ok]
      exact h2
    · rw [hp2, hp1]
      simp

/-- Claim C8 counterexample: two in-bounds scan areas supplied in
bottom-first order make the emitted progress sequence decrease — the
progress value restarts from the lower row index of the second area —
so the progress stream is not monotonically non-decreasing for every
area order. -/
theorem progress_nonmonotone_cex :
    detectSprites img1x4 whitePx 50 [⟨0, 2, 1, 2⟩, ⟨0, 0, 1, 2⟩]
      = .ok ([], [50, 75, 0, 25])
    ∧ ¬ ([(50 : ℤ), 75, 0, 25].Chain' (· ≤ ·)) := by
  refine ⟨by rfl, by norm_num [List.chain'_cons]⟩

/-- Chain' over an int range follows from the consecutive-step
property. -/
theorem chain'_intRange (R : ℤ → ℤ → Prop) (a b : ℤ)
    (h : ∀ y, a ≤ y → y + 1 < b → R y (y + 1)) : (intRange a b).Chain' R := by
  unfold intRange
  rw [List.chain'_map]
  cases hn : (b - a).toNat with
  | zero => simp
  | succ m =>
    refine (List.chain'_range_succ _ m).mpr ?_
    intro i hi
    have hcast : a + ((i + 1 : ℕ) : ℤ) = (a + (i : ℤ)) + 1 := by push_cast; ring
    rw [hcast]
    exact h (a + (i : ℤ)) (by omega) (by omega)

/-- Progress values of one in-bounds area: non-decreasing within the
area and always within [0, 100]. -/
theorem progress_chunk_props (H ay ah : ℤ) (hy : 0 ≤ ay) (hyh : ay + ah ≤ H) :
    ((intRange ay (ay + ah)).map (fun y => Int.tdiv (100 * y) H)).Chain' (· ≤ ·)
    ∧ ∀ v ∈ (intRange ay (ay + ah)).map (fun y => Int.tdiv (100 * y) H),
        0 ≤ v ∧ v ≤ 100 := by
  constructor
  · rw [List.chain'_map]
    apply chain'_intRange
    intro y h1 h2
    have hH : 0 < H := by omega
    rw [Int.tdiv_eq_ediv (by omega) hH.le, Int.tdiv_eq_ediv (by omega) hH.le]
    exact Int.ediv_le_ediv hH (by omega)
  · intro v hv
    obtain ⟨y, hy2, rfl⟩ := List.mem_map.mp hv
    have hyr := mem_intRange.mp hy2
    have hH : 0 < H := by omega
    constructor
    · exact Int.tdiv_nonneg (by omega) hH.le
    · rw [Int.tdiv_eq_ediv (by omega) hH.le]
      exact le_of_lt ((Int.ediv_lt_iff_lt_mul hH).mpr (by omega))

/-- The fresh visited grid has the right shape. -/
theorem initial_vshape (img : Img) :
    VShape img (List.replicate img.height (List.replicate img.width false)) := by
  constructor
  · simp
  · intro row hrow
    rw [List.eq_of_mem_replicate hrow]
    simp

/-- Claim C8 (amended): when every effective scan area lies within the
image bounds, detection succeeds and emits, area by area in list order,
the chunk of values int(100 * y / height) for the area's rows; within
each single area the chunk is monotonically non-decreasing and every
value lies in [0, 100].  Across area boundaries the sequence may
decrease (see progress_nonmonotone_cex), since each area restarts at its
own top row. -/
theorem detect_progress_per_area (img : Img) (bg : Pixel) (t : ℕ)
    (areas0 : List Rect)
    (hin : ∀ a ∈ effectiveAreas img areas0, 0 ≤ a.x ∧ 0 ≤ a.y ∧
      a.x + a.w ≤ (img.width : ℤ) ∧ a.y + a.h ≤ (img.height : ℤ)) :
    (∃ rects, detectSprites img bg t areas0 = .ok (rects,
      ((effectiveAreas img areas0).map (fun a => (intRange a.y (a.y + a.h)).map
        (fun y => Int.tdiv (100 * y) (img.height : ℤ)))).flatten))
    ∧ ∀ a ∈ effectiveAreas img areas0,
        ((intRange a.y (a.y + a.h)).map
          (fun y => Int.tdiv (100 * y) (img.height : ℤ))).Chain' (· ≤ ·)
        ∧ ∀ v ∈ (intRange a.y (a.y + a.h)).map
            (fun y => Int.tdiv (100 * y) (img.height : ℤ)), 0 ≤ v ∧ v ≤ 100 := by
  constructor
  · obtain ⟨st', h1, _, hp⟩ := detect_areas_ok img bg t (effectiveAreas img areas0)
      ⟨List.replicate img.height (List.replicate img.width false), [], []⟩
      (initial_vshape img) hin
    refine ⟨st'.rects, ?_⟩
    show (List.foldlM (scanArea img bg t)
        ⟨List.replicate img.height (List.replicate img.width false), [], []⟩
        (effectiveAreas img areas0) >>= fun st => pure (st.rects, st.progress)) = _
    rw [h1, except_bind_ok, except_pure_ok]
    rw [hp]
    simp
  · intro a ha
    have h := hin a ha
    exact progress_chunk_props (img.height : ℤ) a.y a.h h.2.1 h.2.2.2

/-- Witness for detect_progress_per_area on the whole-image area of a
concrete 3 x 3 image. -/
theorem detect_progress_per_area_witness :
    (∃ rects, detectSprites img3x3 whitePx 50 [] = .ok (rects,
      ((effectiveAreas img3x3 []).map (fun a => (intRange a.y (a.y + a.h)).map
        (fun y => Int.tdiv (100 * y) (img3x3.height : ℤ)))).flatten))
    ∧ ∀ a ∈ effectiveAreas img3x3 [],
        ((intRange a.y (a.y + a.h)).map
          (fun y => Int.tdiv (100 * y) (img3x3.height : ℤ))).Chain' (· ≤ ·)
        ∧ ∀ v ∈ (intRange a.y (a.y + a.h)).map
            (fun y => Int.tdiv (100 * y) (img3x3.height : ℤ)), 0 ≤ v ∧ v ≤ 100 :=
  detect_progress_per_area img3x3 whitePx 50 [] (by decide)

/-- Claim C10 counterexample: a degenerate zero-width scan area that
extends ten rows past the bottom of a 3 x 3 image does NOT make
detection fail — the empty pixel loop never touches the visited grid, so
the run completes, even emitting progress values beyond 100. -/
theorem oob_area_not_failing_cex :
    detectSprites img3x3 whitePx 50 [⟨0, 0, 0, 10⟩]
      = .ok ([], [0, 33, 66, 100, 133, 166, 200, 233, 266, 300])
    ∧ (0 : ℤ) + 10 > (img3x3.height : ℤ) := by
  refine ⟨by rfl, by decide⟩

/-- Splitting a Python range at an interior point. -/
theorem intRange_append (a m b : ℤ) (h1 : a ≤ m) (h2 : m ≤ b) :
    intRange a b = intRange a m ++ intRange m b := by
  unfold intRange
  have hn : (b - a).toNat = (m - a).toNat + (b - m).toNat := by omega
  rw [hn, List.range_add, List.map_append, List.map_map]
  congr 1
  apply List.map_congr_left
  intro k hk
  simp only [Function.comp]
  omega

/-- Head of a nonempty Python range. -/
theorem intRange_cons (a b : ℤ) (h : a < b) :
    intRange a b = a :: intRange (a + 1) b := by
  unfold intRange
  have hn : (b - a).toNat = (b - (a + 1)).toNat + 1 := by omega
  rw [hn, List.range_succ_eq_map, List.map_cons, List.map_map]
  congr 1
  · simp
  · apply List.map_congr_left
    intro k hk
    simp only [Function.comp, Nat.succ_eq_add_one]
    push_cast
    ring

/-- A pixel scan on a row index at or past the image height raises (the
read visited[y] is out of range). -/
theorem scanPixel_err_y (img : Img) (bg : Pixel) (t : ℕ) (y x : ℤ)
    (st : DetState) (hy : 0 ≤ y) (hy2 : (img.height : ℤ) ≤ y)
    (hs : VShape img st.visited) :
    scanPixel img bg t y st x = .error () := by
  unfold scanPixel
  rw [pyGet_err st.visited y hy (by rw [hs.1]; exact hy2), except_bind_err]

/-- A pixel scan on an in-range row but a column at or past the image
width raises (the read visited[y][x] is out of range). -/
theorem scanPixel_err_x (img : Img) (bg : Pixel) (t : ℕ) (y x : ℤ)
    (st : DetState) (hy : 0 ≤ y) (hy2 : y < (img.height : ℤ)) (hx : 0 ≤ x)
    (hx2 : (img.width : ℤ) ≤ x) (hs : VShape img st.visited) :
    scanPixel img bg t y st x = .error () := by
  obtain ⟨row, hrow, hrowget⟩ := pyGet_ok st.visited y hy (by rw [hs.1]; exact hy2)
  have hrlen : row.length = img.width := hs.2 row (List.getElem?_mem hrowget)
  unfold scanPixel
  rw [hrow, except_bind_ok, pyGet_err row x hx (by rw [hrlen]; exact hx2),
    except_bind_err]

/-- An x-range overflowing the image width makes the pixel fold of an
in-range row raise: the in-bounds prefix succeeds and the first
out-of-range column fails. -/
theorem scanRow_err (img : Img) (bg : Pixel) (t : ℕ) (y ax aw : ℤ)
    (st : DetState) (hy : 0 ≤ y) (hyok : y < (img.height : ℤ)) (hax : 0 ≤ ax)
    (haw : 0 < aw) (hover : (img.width : ℤ) < ax + aw)
    (hs : VShape img st.visited) :
    (intRange ax (ax + aw)).foldlM (scanPixel img bg t y) st = .error () := by
  have hsplit : intRange ax (ax + aw)
      = intRange ax (max ax (img.width : ℤ))
        ++ intRange (max ax (img.width : ℤ)) (ax + aw) :=
    intRange_append _ _ _ (le_max_left _ _) (by omega)
  rw [hsplit, List.foldlM_append]
  obtain ⟨st1, h1, hs1, _⟩ := scanRow_pixels_ok img bg t y hy hyok
    (intRange ax (max ax (img.width : ℤ)))
    (fun x hx => by
      have := mem_intRange.mp hx
      omega) st hs
  rw [h1, except_bind_ok,
    intRange_cons (max ax (img.width : ℤ)) (ax + aw) (by omega),
    List.foldlM_cons,
    scanPixel_err_x img bg t y (max ax (img.width : ℤ)) st1 hy hyok
      (by omega) (by omega) hs1,
    except_bind_err]

/-- Error propagation of the invariant through a monadic fold. -/
theorem foldlM_shape {σ α : Type} (Pinv : σ → Prop) (f : σ → α → Except Unit σ)
    (hf : ∀ s a s2, f s a = .ok s2 → Pinv s → Pinv s2) :
    ∀ (l : List α) (s s2 : σ), l.foldlM f s = .ok s2 → Pinv s → Pinv s2 := by
  intro l
  induction l with
  | nil =>
    intro s s2 h hp
    obtain rfl := Except.ok.inj h
    exact hp
  | cons a rest ih =>
    intro s s2 h hp
    rw [List.foldlM_cons] at h
    cases hb : f s a with
    | error e => rw [hb, except_bind_err] at h; simp at h
    | ok s1 =>
      rw [hb, except_bind_ok] at h
      exact ih s1 s2 h (hf s a s1 hb hp)

/-- A successful row step keeps the grid shape. -/
theorem rowStep_shape (img : Img) (bg : Pixel) (t : ℕ) (ax aw : ℤ) :
    ∀ (s : DetState) (y : ℤ) (s2 : DetState),
      (do
        let s3 ← (intRange ax (ax + aw)).foldlM (scanPixel img bg t y) s
        pure { s3 with
          progress := s3.progress ++ [Int.tdiv (100 * y) (img.height : ℤ)] })
        = Except.ok s2 →
      VShape img s.visited → VShape img s2.visited := by
  intro s y s2 h hp
  cases hb : (intRange ax (ax + aw)).foldlM (scanPixel img bg t y) s with
  | error e => rw [hb, except_bind_err] at h; simp at h
  | ok s3 =>
    rw [hb, except_bind_ok, except_pure_ok] at h
    obtain rfl := Except.ok.inj h
    exact foldlM_shape (fun q => VShape img q.visited) _
      (fun q a q2 hq hpq => (scanPixel_shape img bg t y q a q2 hq hpq).1)
      _ _ _ hb hp

/-- A successful area scan keeps the grid shape, whatever the area. -/
theorem scanArea_shape_of_ok (img : Img) (bg : Pixel) (t : ℕ) (st : DetState)
    (area : Rect) (st2 : DetState) (h : scanArea img bg t st area = .ok st2)
    (hs : VShape img st.visited) : VShape img st2.visited := by
  unfold scanArea at h
  exact foldlM_shape (fun q => VShape img q.visited) _
    (fun s y s2 hstep hps => rowStep_shape img bg t area.x area.w s y s2 hstep hps)
    _ _ _ h hs

/-- A scan area with nonnegative origin and positive size reaching past
the image bounds makes the whole area scan raise. -/
theorem scanArea_err (img : Img) (bg : Pixel) (t : ℕ) (st : DetState)
    (area : Rect) (hax : 0 ≤ area.x) (hay : 0 ≤ area.y) (haw : 0 < area.w)
    (hah : 0 < area.h)
    (hover : (img.width : ℤ) < area.x + area.w
      ∨ (img.height : ℤ) < area.y + area.h)
    (hs : VShape img st.visited) :
    scanArea img bg t st area = .error () := by
  unfold scanArea
  by_cases hxo : (img.width : ℤ) < area.x + area.w
  · -- the first row already fails, whether it is in vertical range or not
    rw [intRange_cons area.y (area.y + area.h) (by omega)]
    simp only [List.foldlM_cons]
    have hxfold : (intRange area.x (area.x + area.w)).foldlM
        (scanPixel img bg t area.y) st = .error () := by
      by_cases hyb : area.y < (img.height : ℤ)
      · exact scanRow_err img bg t area.y area.x area.w st hay hyb hax haw hxo hs
      · rw [intRange_cons area.x (area.x + area.w) (by omega), List.foldlM_cons,
          scanPixel_err_y img bg t area.y area.x st hay (by omega) hs,
          except_bind_err]
    rw [hxfold, except_bind_err, except_bind_err]
  · -- x side fits, so the vertical side overflows: the in-range rows
    -- succeed and the first row at or past the height fails
    have hyo : (img.height : ℤ) < area.y + area.h := by tauto
    rw [intRange_append area.y (max area.y (img.height : ℤ)) (area.y + area.h)
      (le_max_left _ _) (by omega), List.foldlM_append]
    obtain ⟨st1, h1, hs1, _⟩ := scanArea_rows_ok img bg t area.x area.w hax
      (by omega) (intRange area.y (max area.y (img.height : ℤ)))
      (fun y hyy => by
        have := mem_intRange.mp hyy
        omega) st hs
    rw [h1, except_bind_ok,
      intRange_cons (max area.y (img.height : ℤ)) (area.y + area.h) (by omega)]
    simp only [List.foldlM_cons]
    have hxfold : (intRange area.x (area.x + area.w)).foldlM
        (scanPixel img bg t (max area.y (img.height : ℤ))) st1 = .error () := by
      rw [intRange_cons area.x (area.x + area.w) (by omega), List.foldlM_cons,
        scanPixel_err_y img bg t (max area.y (img.height : ℤ)) area.x st1
          (by omega) (by omega) hs1,
        except_bind_err]
    rw [hxfold, except_bind_err, except_bind_err]

/-- Claim C10 (amended): when some effective scan area with nonnegative
origin and positive width and height extends past the image bounds, the
whole detection raises IndexError: the run returns an error, the error
dialog is shown, and no region list — not even a partial one — is
delivered through detection_finished.  (A degenerate area with zero
width or height escapes this, see oob_area_not_failing_cex.) -/
theorem detect_err (img : Img) (bg : Pixel) (t : ℕ) (areas0 : List Rect)
    (a : Rect) (ha : a ∈ effectiveAreas img areas0)
    (hax : 0 ≤ a.x) (hay : 0 ≤ a.y) (haw : 0 < a.w) (hah : 0 < a.h)
    (hover : (img.width : ℤ) < a.x + a.w ∨ (img.height : ℤ) < a.y + a.h) :
    detectSprites img bg t areas0 = .error () := by
  suffices h : ∀ (l : List Rect) (st : DetState), VShape img st.visited → a ∈ l →
      l.foldlM (scanArea img bg t) st = .error () by
    show (List.foldlM (scanArea img bg t)
        ⟨List.replicate img.height (List.replicate img.width false), [], []⟩
        (effectiveAreas img areas0) >>= fun st => pure (st.rects, st.progress)) = _
    rw [h (effectiveAreas img areas0) _ (initial_vshape img) ha, except_bind_err]
  intro l
  induction l with
  | nil => intro st _ hmem; simp at hmem
  | cons b rest ih =>
    intro st hs hmem
    rw [List.foldlM_cons]
    rcases List.mem_cons.mp hmem with rfl | hmem2
    · rw [scanArea_err img bg t st a hax hay haw hah hover hs, except_bind_err]
    · cases hb : scanArea img bg t st b with
      | error e =>
        cases e
        rw [except_bind_err]
      | ok st1 =>
        rw [except_bind_ok]
        exact ih st1 (scanArea_shape_of_ok img bg t st b st1 hb hs) hmem2

/-- Witness for detect_err: a 5 x 5 area on a 3 x 3 image aborts the
run. -/
theorem detect_err_witness :
    detectSprites img3x3 whitePx 50 [⟨0, 0, 5, 5⟩] = .error () :=
  detect_err img3x3 whitePx 50 [⟨0, 0, 5, 5⟩] ⟨0, 0, 5, 5⟩ (by decide)
    (by decide) (by decide) (by decide) (by decide) (Or.inl (by decide))

/-- The minimum of a nonempty coordinate image is attained and below
every member. -/
theorem bminX_spec (B : Finset (ℤ × ℤ)) (hne : B.Nonempty) :
    (∃ p ∈ B, p.1 = bminX B) ∧ ∀ p ∈ B, bminX B ≤ p.1 := by
  have hne2 : (B.image Prod.fst).Nonempty := hne.image _
  have hmin : (B.image Prod.fst).min = some ((B.image Prod.fst).min' hne2) :=
    (Finset.coe_min' hne2).symm
  have hval : bminX B = (B.image Prod.fst).min' hne2 := by
    rw [bminX, hmin]
    rfl
  constructor
  · obtain ⟨p, hp, hp2⟩ := Finset.mem_image.mp (Finset.min'_mem _ hne2)
    exact ⟨p, hp, by rw [hp2, hval]⟩
  · intro p hp
    rw [hval]
    exact Finset.min'_le _ _ (Finset.mem_image_of_mem _ hp)

/-- The maximum of a nonempty coordinate image is attained and above
every member. -/
theorem bmaxX_spec (B : Finset (ℤ × ℤ)) (hne : B.Nonempty) :
    (∃ p ∈ B, p.1 = bmaxX B) ∧ ∀ p ∈ B, p.1 ≤ bmaxX B := by
  have hne2 : (B.image Prod.fst).Nonempty := hne.image _
  have hmax : (B.image Prod.fst).max = some ((B.image Prod.fst).max' hne2) :=
    (Finset.coe_max' hne2).symm
  have hval : bmaxX B = (B.image Prod.fst).max' hne2 := by
    rw [bmaxX, hmax]
    rfl
  constructor
  · obtain ⟨p, hp, hp2⟩ := Finset.mem_image.mp (Finset.max'_mem _ hne2)
    exact ⟨p, hp, by rw [hp2, hval]⟩
  · intro p hp
    rw [hval]
    exact Finset.le_max' _ _ (Finset.mem_image_of_mem _ hp)

/-- Vertical version of bminX_spec. -/
theorem bminY_spec (B : Finset (ℤ × ℤ)) (hne : B.Nonempty) :
    (∃ p ∈ B, p.2 = bminY B) ∧ ∀ p ∈ B, bminY B ≤ p.2 := by
  have hne2 : (B.image Prod.snd).Nonempty := hne.image _
  have hmin : (B.image Prod.snd).min = some ((B.image Prod.snd).min' hne2) :=
    (Finset.coe_min' hne2).symm
  have hval : bminY B = (B.image Prod.snd).min' hne2 := by
    rw [bminY, hmin]
    rfl
  constructor
  · obtain ⟨p, hp, hp2⟩ := Finset.mem_image.mp (Finset.min'_mem _ hne2)
    exact ⟨p, hp, by rw [hp2, hval]⟩
  · intro p hp
    rw [hval]
    exact Finset.min'_le _ _ (Finset.mem_image_of_mem _ hp)

/-- Vertical version of bmaxX_spec. -/
theorem bmaxY_spec (B : Finset (ℤ × ℤ)) (hne : B.Nonempty) :
    (∃ p ∈ B, p.2 = bmaxY B) ∧ ∀ p ∈ B, p.2 ≤ bmaxY B := by
  have hne2 : (B.image Prod.snd).Nonempty := hne.image _
  have hmax : (B.image Prod.snd).max = some ((B.image Prod.snd).max' hne2) :=
    (Finset.coe_max' hne2).symm
  have hval : bmaxY B = (B.image Prod.snd).max' hne2 := by
    rw [bmaxY, hmax]
    rfl
  constructor
  · obtain ⟨p, hp, hp2⟩ := Finset.mem_image.mp (Finset.max'_mem _ hne2)
    exact ⟨p, hp, by rw [hp2, hval]⟩
  · intro p hp
    rw [hval]
    exact Finset.le_max' _ _ (Finset.mem_image_of_mem _ hp)

/-- Reading the grid after the in-bounds write performed by visSetZ. -/
theorem visTrue_visSetZ (img : Img) (vis : List (List Bool))
    (hs : VShape img vis) (x y : ℤ) (hx : 0 ≤ x) (hx2 : x < (img.width : ℤ))
    (hy : 0 ≤ y) (hy2 : y < (img.height : ℤ)) (q : ℤ × ℤ) (hq : inB img q) :
    (visTrue (visSetZ vis y x true) q ↔ (visTrue vis q ∨ q = (x, y))) := by
  have hlen := hs.1
  have hyn : y.toNat < vis.length := by omega
  have hrow : vis[y.toNat]? = some (vis.get ⟨y.toNat, hyn⟩) :=
    List.getElem?_eq_getElem hyn
  have hrlen : (vis.get ⟨y.toNat, hyn⟩).length = img.width :=
    hs.2 _ (List.getElem?_mem hrow)
  have hset : visSetZ vis y x true
      = vis.set y.toNat ((vis.get ⟨y.toNat, hyn⟩).set x.toNat true) := by
    unfold visSetZ pyIdx
    rw [if_pos ⟨hy, by omega⟩]
    show (match vis[y.toNat]? with
      | some row =>
          match
            (if 0 ≤ x ∧ x < (row.length : ℤ) then some x.toNat
             else if -(row.length : ℤ) ≤ x ∧ x < 0 then some (x + row.length).toNat
             else none) with
          | some xi => vis.set y.toNat (row.set xi true)
          | none => vis
      | none => vis) = _
    rw [hrow]
    show (match
        (if 0 ≤ x ∧ x < ((vis.get ⟨y.toNat, hyn⟩).length : ℤ) then some x.toNat
         else if -((vis.get ⟨y.toNat, hyn⟩).length : ℤ) ≤ x ∧ x < 0 then
           some (x + (vis.get ⟨y.toNat, hyn⟩).length).toNat
         else none) with
      | some xi => vis.set y.toNat ((vis.get ⟨y.toNat, hyn⟩).set xi true)
      | none => vis) = _
    rw [if_pos ⟨hx, by omega⟩]
  rw [hset]
  unfold visTrue visGetN
  obtain ⟨hq1, hq2, hq3, hq4⟩ := hq
  by_cases hyy : q.2.toNat = y.toNat
  · rw [hyy, List.getElem?_set_self hyn]
    simp only [Option.getD_some]
    by_cases hxx : q.1.toNat = x.toNat
    · rw [hxx]
      rw [List.getD_eq_getElem?_getD, List.getElem?_set_self (by omega),
        Option.getD_some]
      have hqeq : q = (x, y) := Prod.ext (by omega) (by omega)
      simp [hqeq]
    · rw [List.getD_eq_getElem?_getD, List.getElem?_set_ne (fun h => hxx h.symm)]
      have hqne : ¬ (q = (x, y)) := by
        intro h
        rw [h] at hxx
        exact hxx rfl
      simp [hqne, hrow, List.getD_eq_getElem?_getD]
  · rw [List.getElem?_set_ne (fun h => hyy h.symm)]
    have hqne : ¬ (q = (x, y)) := by
      intro h
      rw [h] at hyy
      exact hyy rfl
    simp [hqne]

/-- The eight offsets are exactly the nonzero Chebyshev-1 vectors. -/
theorem mem_neighborOffsets (d : ℤ × ℤ) :
    d ∈ neighborOffsets ↔ (d ≠ (0, 0) ∧ |d.1| ≤ 1 ∧ |d.2| ≤ 1) := by
  obtain ⟨a, b⟩ := d
  constructor
  · intro h
    fin_cases h <;> refine ⟨by decide, by decide, by decide⟩
  · rintro ⟨hne, h1, h2⟩
    simp only [Prod.fst] at h1
    simp only [Prod.snd] at h2
    have ha : a = -1 ∨ a = 0 ∨ a = 1 := by
      have := abs_le.mp h1
      omega
    have hb : b = -1 ∨ b = 0 ∨ b = 1 := by
      have := abs_le.mp h2
      omega
    rcases ha with rfl | rfl | rfl <;> rcases hb with rfl | rfl | rfl <;>
      first
        | exact absurd rfl hne
        | simp [neighborOffsets]

/-- Adjacency as an offset from the list. -/
theorem adj8_iff_offset (p q : ℤ × ℤ) :
    adj8 p q ↔ ∃ d ∈ neighborOffsets, q = (p.1 + d.1, p.2 + d.2) := by
  constructor
  · rintro ⟨hne, h1, h2⟩
    refine ⟨(q.1 - p.1, q.2 - p.2), ?_, by simp⟩
    rw [mem_neighborOffsets]
    refine ⟨?_, by simpa [abs_sub_comm] using h1, by simpa [abs_sub_comm] using h2⟩
    intro h0
    apply hne
    have e1 : q.1 - p.1 = 0 := congrArg Prod.fst h0
    have e2 : q.2 - p.2 = 0 := congrArg Prod.snd h0
    exact Prod.ext (by omega) (by omega)
  · rintro ⟨d, hd, rfl⟩
    rw [mem_neighborOffsets] at hd
    obtain ⟨hne, h1, h2⟩ := hd
    refine ⟨?_, ?_, ?_⟩
    · intro h0
      apply hne
      have e1 : p.1 = p.1 + d.1 := congrArg Prod.fst h0
      have e2 : p.2 = p.2 + d.2 := congrArg Prod.snd h0
      exact Prod.ext (by omega) (by omega)
    · simp only [Prod.fst]
      have := abs_le.mp h1
      rw [abs_le]
      omega
    · simp only [Prod.snd]
      have := abs_le.mp h2
      rw [abs_le]
      omega

/-- Characterisation of the neighbour fold of one popped cell: the queue
grows by the accepted fresh foreground neighbours (one per offset, each
marked as it is enqueued), the bounds stay put, and the visited grid
gains exactly those neighbours. -/
theorem visitNeighbors_fold_spec (img : Img) (bg : Pixel) (t : ℕ)
    (p : ℤ × ℤ) :
    ∀ (ds : List (ℤ × ℤ)), ds.Nodup →
    ∀ (W : (ℤ × ℤ) → Prop) (st : BfsState), VShape img st.visited →
      (∀ q, inB img q → (visTrue st.visited q ↔ W q)) →
      ∃ L : List (ℤ × ℤ),
        (List.foldl (tryNeighbor img bg t p) st ds).queue = st.queue ++ L
        ∧ (List.foldl (tryNeighbor img bg t p) st ds).minX = st.minX
        ∧ (List.foldl (tryNeighbor img bg t p) st ds).minY = st.minY
        ∧ (List.foldl (tryNeighbor img bg t p) st ds).maxX = st.maxX
        ∧ (List.foldl (tryNeighbor img bg t p) st ds).maxY = st.maxY
        ∧ VShape img (List.foldl (tryNeighbor img bg t p) st ds).visited
        ∧ (∀ q, inB img q →
            (visTrue (List.foldl (tryNeighbor img bg t p) st ds).visited q
              ↔ (W q ∨ q ∈ L)))
        ∧ (∀ q, q ∈ L ↔ ∃ d ∈ ds, q = (p.1 + d.1, p.2 + d.2)
            ∧ inB img q ∧ fgP img bg t q ∧ ¬ W q)
        ∧ L.Nodup := by
  intro ds
  induction ds with
  | nil =>
    intro _ W st hs hchar
    refine ⟨[], by simp, rfl, rfl, rfl, rfl, hs, ?_, by simp, List.nodup_nil⟩
    intro q hq
    simp [hchar q hq]
  | cons d0 rest ih =>
    intro hnd W st hs hchar
    have hnd2 : rest.Nodup := hnd.of_cons
    have hd0r : d0 ∉ rest := (List.nodup_cons.mp hnd).1
    rw [List.foldl_cons]
    by_cases hacc : inB img (p.1 + d0.1, p.2 + d0.2)
        ∧ fgP img bg t (p.1 + d0.1, p.2 + d0.2)
        ∧ ¬ W (p.1 + d0.1, p.2 + d0.2)
    · -- accepted: the neighbour is marked and enqueued
      obtain ⟨hin, hfg, hW⟩ := hacc
      have hin' : 0 ≤ p.1 + d0.1 ∧ p.1 + d0.1 < (img.width : ℤ)
          ∧ 0 ≤ p.2 + d0.2 ∧ p.2 + d0.2 < (img.height : ℤ) := hin
      have hvt : visTrue st.visited (p.1 + d0.1, p.2 + d0.2)
          ↔ W (p.1 + d0.1, p.2 + d0.2) := hchar _ hin
      have hvget : visGetN st.visited (p.2 + d0.2).toNat (p.1 + d0.1).toNat
          = false := by
        cases hb : visGetN st.visited (p.2 + d0.2).toNat (p.1 + d0.1).toNat
        · rfl
        · exact absurd (hvt.mp hb) hW
      have hfg' : 128 < (img.pix (p.1 + d0.1).toNat (p.2 + d0.2).toNat).a
          ∧ ¬ isBackground (img.pix (p.1 + d0.1).toNat (p.2 + d0.2).toNat)
            bg t = true := hfg
      have hstep : tryNeighbor img bg t p st d0
          = { st with
              visited := visSetZ st.visited (p.2 + d0.2) (p.1 + d0.1) true
              queue := st.queue ++ [(p.1 + d0.1, p.2 + d0.2)] } := by
        simp only [tryNeighbor]
        rw [if_pos hin', hvget, if_neg Bool.false_ne_true, if_pos hfg']
      rw [hstep]
      have hs1 : VShape img (visSetZ st.visited (p.2 + d0.2) (p.1 + d0.1) true) :=
        visSetZ_shape img st.visited _ _ true hs
      have hchar1 : ∀ q, inB img q →
          (visTrue (visSetZ st.visited (p.2 + d0.2) (p.1 + d0.1) true) q
            ↔ (W q ∨ q = (p.1 + d0.1, p.2 + d0.2))) := by
        intro q hq
        rw [visTrue_visSetZ img st.visited hs (p.1 + d0.1) (p.2 + d0.2)
          hin'.1 hin'.2.1 hin'.2.2.1 hin'.2.2.2 q hq]
        rw [hchar q hq]
      obtain ⟨L2, hq2, hm1, hm2, hm3, hm4, hs2, hchar2, hmem2, hnd3⟩ :=
        ih hnd2 (fun q => W q ∨ q = (p.1 + d0.1, p.2 + d0.2))
          { st with
            visited := visSetZ st.visited (p.2 + d0.2) (p.1 + d0.1) true
            queue := st.queue ++ [(p.1 + d0.1, p.2 + d0.2)] }
          hs1 hchar1
      refine ⟨(p.1 + d0.1, p.2 + d0.2) :: L2, ?_, hm1, hm2, hm3, hm4, hs2,
        ?_, ?_, ?_⟩
      · rw [hq2]
        simp
      · intro q hq
        rw [hchar2 q hq]
        constructor
        · rintro (⟨h | h⟩ | h)
          · exact Or.inl h
          · exact Or.inr (by simp [h])
          · exact Or.inr (by simp [h])
        · rintro (h | h)
          · exact Or.inl (Or.inl h)
          · rcases List.mem_cons.mp h with h2 | h2
            · exact Or.inl (Or.inr h2)
            · exact Or.inr h2
      · intro q
        rw [List.mem_cons, hmem2 q]
        constructor
        · rintro (rfl | ⟨d, hd, rfl, h1, h2, h3⟩)
          · exact ⟨d0, by simp, rfl, hin, hfg, hW⟩
          · refine ⟨d, by simp [hd], rfl, h1, h2, fun hw => h3 (Or.inl hw)⟩
        · rintro ⟨d, hd, rfl, h1, h2, h3⟩
          rcases List.mem_cons.mp hd with rfl | hd2
          · exact Or.inl rfl
          · refine Or.inr ⟨d, hd2, rfl, h1, h2, ?_⟩
            rintro (hw | heq)
            · exact h3 hw
            · apply hd0r
              have e1 : p.1 + d.1 = p.1 + d0.1 := congrArg Prod.fst heq
              have e2 : p.2 + d.2 = p.2 + d0.2 := congrArg Prod.snd heq
              have : d = d0 := Prod.ext (by omega) (by omega)
              rw [← this]
              exact hd2
      · rw [List.nodup_cons]
        refine ⟨?_, hnd3⟩
        intro hmem
        obtain ⟨d, hd, heq, _, _, h3⟩ := (hmem2 _).mp hmem
        exact h3 (Or.inr rfl)
    · -- rejected: this offset leaves the state unchanged
      have hstep : tryNeighbor img bg t p st d0 = st := by
        simp only [tryNeighbor]
        by_cases hin : 0 ≤ p.1 + d0.1 ∧ p.1 + d0.1 < (img.width : ℤ)
            ∧ 0 ≤ p.2 + d0.2 ∧ p.2 + d0.2 < (img.height : ℤ)
        · rw [if_pos hin]
          have hinB : inB img (p.1 + d0.1, p.2 + d0.2) := hin
          have hvt : visTrue st.visited (p.1 + d0.1, p.2 + d0.2)
              ↔ W (p.1 + d0.1, p.2 + d0.2) := hchar _ hinB
          cases hb : visGetN st.visited (p.2 + d0.2).toNat (p.1 + d0.1).toNat
          · rw [if_neg Bool.false_ne_true]
            have hnfg : ¬ (128 < (img.pix (p.1 + d0.1).toNat
                  (p.2 + d0.2).toNat).a
                ∧ ¬ isBackground (img.pix (p.1 + d0.1).toNat
                  (p.2 + d0.2).toNat) bg t = true) := by
              intro hfg
              have hW : ¬ W (p.1 + d0.1, p.2 + d0.2) := by
                intro hw
                have h2 : visGetN st.visited (p.2 + d0.2).toNat
                    (p.1 + d0.1).toNat = true := hvt.mpr hw
                rw [hb] at h2
                exact Bool.false_ne_true h2
              exact hacc ⟨hinB,
                (show fgP img bg t (p.1 + d0.1, p.2 + d0.2) from hfg), hW⟩
            rw [if_neg hnfg]
          · rw [if_pos rfl]
        · rw [if_neg hin]
      rw [hstep]
      obtain ⟨L2, hq2, hm1, hm2, hm3, hm4, hs2, hchar2, hmem2, hnd3⟩ :=
        ih hnd2 W st hs hchar
      refine ⟨L2, hq2, hm1, hm2, hm3, hm4, hs2, hchar2, ?_, hnd3⟩
      intro q
      rw [hmem2 q]
      constructor
      · rintro ⟨d, hd, rfl, h1, h2, h3⟩
        exact ⟨d, List.mem_cons_of_mem _ hd, rfl, h1, h2, h3⟩
      · rintro ⟨d, hd, rfl, h1, h2, h3⟩
        rcases List.mem_cons.mp hd with rfl | hd2
        · exact absurd ⟨h1, h2, h3⟩ hacc
        · exact ⟨d, hd2, rfl, h1, h2, h3⟩

/-- Adjacency is symmetric. -/
theorem adj8_symm {p q : ℤ × ℤ} (h : adj8 p q) : adj8 q p := by
  obtain ⟨h1, h2, h3⟩ := h
  exact ⟨fun e => h1 e.symm, by rw [abs_sub_comm]; exact h2,
    by rw [abs_sub_comm]; exact h3⟩

/-- Bounding-box minimum over an insert into a nonempty blob. -/
theorem bminX_insert (p : ℤ × ℤ) (S : Finset (ℤ × ℤ)) (hS : S.Nonempty) :
    bminX (insert p S) = min p.1 (bminX S) := by
  have hne : (S.image Prod.fst).Nonempty := hS.image _
  have hm : (S.image Prod.fst).min = ((S.image Prod.fst).min' hne : ℤ) :=
    (Finset.coe_min' hne).symm
  rw [bminX, bminX, Finset.image_insert, Finset.min_insert, hm,
    ← WithTop.coe_min, WithTop.untop'_coe, WithTop.untop'_coe]

/-- Bounding-box maximum over an insert into a nonempty blob. -/
theorem bmaxX_insert (p : ℤ × ℤ) (S : Finset (ℤ × ℤ)) (hS : S.Nonempty) :
    bmaxX (insert p S) = max p.1 (bmaxX S) := by
  have hne : (S.image Prod.fst).Nonempty := hS.image _
  have hm : (S.image Prod.fst).max = ((S.image Prod.fst).max' hne : ℤ) :=
    (Finset.coe_max' hne).symm
  rw [bmaxX, bmaxX, Finset.image_insert, Finset.max_insert, hm,
    ← WithBot.coe_max, WithBot.unbot'_coe, WithBot.unbot'_coe]

/-- Vertical version of bminX_insert. -/
theorem bminY_insert (p : ℤ × ℤ) (S : Finset (ℤ × ℤ)) (hS : S.Nonempty) :
    bminY (insert p S) = min p.2 (bminY S) := by
  have hne : (S.image Prod.snd).Nonempty := hS.image _
  have hm : (S.image Prod.snd).min = ((S.image Prod.snd).min' hne : ℤ) :=
    (Finset.coe_min' hne).symm
  rw [bminY, bminY, Finset.image_insert, Finset.min_insert, hm,
    ← WithTop.coe_min, WithTop.untop'_coe, WithTop.untop'_coe]

/-- Vertical version of bmaxX_insert. -/
theorem bmaxY_insert (p : ℤ × ℤ) (S : Finset (ℤ × ℤ)) (hS : S.Nonempty) :
    bmaxY (insert p S) = max p.2 (bmaxY S) := by
  have hne : (S.image Prod.snd).Nonempty := hS.image _
  have hm : (S.image Prod.snd).max = ((S.image Prod.snd).max' hne : ℤ) :=
    (Finset.coe_max' hne).symm
  rw [bmaxY, bmaxY, Finset.image_insert, Finset.max_insert, hm,
    ← WithBot.coe_max, WithBot.unbot'_coe, WithBot.unbot'_coe]

/-- Bounding box of a single cell. -/
theorem bbox_singleton (p : ℤ × ℤ) :
    bminX {p} = p.1 ∧ bmaxX {p} = p.1 ∧ bminY {p} = p.2 ∧ bmaxY {p} = p.2 := by
  refine ⟨?_, ?_, ?_, ?_⟩ <;>
    simp [bminX, bmaxX, bminY, bmaxY]

/-- Unfolding the fuelled loop on an empty queue. -/
theorem bfsLoop_nil (img : Img) (bg : Pixel) (t : ℕ) (fuel : ℕ)
    (st : BfsState) (hq : st.queue = []) :
    bfsLoop img bg t (fuel + 1) st = st := by
  obtain ⟨q, vis, a, b, c, d⟩ := st
  have hq2 : q = [] := hq
  subst hq2
  rfl

/-- Unfolding the fuelled loop on a pop: the head is removed, absorbed
into the bounds, and its neighbours are processed. -/
theorem bfsLoop_cons (img : Img) (bg : Pixel) (t : ℕ) (fuel : ℕ)
    (st : BfsState) (x y : ℤ) (rest : List (ℤ × ℤ))
    (hq : st.queue = (x, y) :: rest) :
    bfsLoop img bg t (fuel + 1) st
      = bfsLoop img bg t fuel (visitNeighbors img bg t (x, y)
          { st with queue := rest
                    minX := min st.minX x
                    maxX := max st.maxX x
                    minY := min st.minY y
                    maxY := max st.maxY y }) := by
  obtain ⟨q, vis, a, b, c, d⟩ := st
  have hq2 : q = (x, y) :: rest := hq
  subst hq2
  rfl

/-- The BFS preserves its invariant and, given fuel exceeding the count
of unmarked blob cells plus the queue length, drains the queue: every
iteration consumes one unit of fuel and decreases that measure by
exactly one. -/
theorem bfsLoop_invariant (img : Img) (bg : Pixel) (t : ℕ)
    (B : Finset (ℤ × ℤ)) (V0 : (ℤ × ℤ) → Prop) (seed : ℤ × ℤ)
    (hBin : ∀ q ∈ B, inB img q)
    (hBfg : ∀ q ∈ B, fgP img bg t q)
    (hBmax : ∀ p ∈ B, ∀ q, adj8 p q → inB img q → fgP img bg t q → q ∈ B) :
    ∀ (fuel : ℕ) (D : Finset (ℤ × ℤ)) (st : BfsState),
      BfsInv img B V0 seed D st →
      (B \ (D ∪ st.queue.toFinset)).card + st.queue.length < fuel →
      ∃ D2, D ⊆ D2
        ∧ BfsInv img B V0 seed D2 (bfsLoop img bg t fuel st)
        ∧ (bfsLoop img bg t fuel st).queue = [] := by
  intro fuel
  induction fuel with
  | zero => intro D st _ hm; omega
  | succ fuel ih =>
    intro D st hinv hm
    obtain ⟨hsh, hchar, hDB, hQB, hseed, hclo, hx1, hx2, hy1, hy2⟩ := hinv
    cases hq : st.queue with
    | nil =>
      rw [bfsLoop_nil img bg t fuel st hq]
      exact ⟨D, Finset.Subset.refl D,
        ⟨hsh, hchar, hDB, hQB, hseed, hclo, hx1, hx2, hy1, hy2⟩, hq⟩
    | cons p rest =>
      obtain ⟨x, y⟩ := p
      rw [hq] at hchar hQB hseed hclo hm
      rw [bfsLoop_cons img bg t fuel st x y rest hq]
      set st1 : BfsState :=
        { st with queue := rest
                  minX := min st.minX x
                  maxX := max st.maxX x
                  minY := min st.minY y
                  maxY := max st.maxY y } with hst1
      rw [show visitNeighbors img bg t (x, y) st1
        = List.foldl (tryNeighbor img bg t (x, y)) st1 neighborOffsets from rfl]
      have hsh1 : VShape img st1.visited := by
        rw [hst1]
        exact hsh
      have hchar1 : ∀ q, inB img q → (visTrue st1.visited q
          ↔ (V0 q ∨ q ∈ D ∨ q ∈ (x, y) :: rest)) := by
        rw [hst1]
        exact hchar
      have hq1 : st1.queue = rest := by rw [hst1]
      have hmx1 : st1.minX = min st.minX x := by rw [hst1]
      have hmx2 : st1.maxX = max st.maxX x := by rw [hst1]
      have hmy1 : st1.minY = min st.minY y := by rw [hst1]
      have hmy2 : st1.maxY = max st.maxY y := by rw [hst1]
      obtain ⟨L, hLq, hLm1, hLm2, hLm3, hLm4, hLsh, hLchar, hLmem, hLnd⟩ :=
        visitNeighbors_fold_spec img bg t (x, y) neighborOffsets (by decide)
          (fun q => V0 q ∨ q ∈ D ∨ q ∈ (x, y) :: rest) st1 hsh1 hchar1
      rw [hq1] at hLq
      have hpB : (x, y) ∈ B := hQB (x, y) (List.mem_cons_self _ _)
      have hLB : ∀ q ∈ L, q ∈ B := by
        intro q hqL
        obtain ⟨d, hd, rfl, hinq, hfgq, _⟩ := (hLmem q).mp hqL
        exact hBmax (x, y) hpB _ ((adj8_iff_offset (x, y) _).mpr ⟨d, hd, rfl⟩)
          hinq hfgq
      have hLfresh : ∀ q ∈ L, ¬ (V0 q ∨ q ∈ D ∨ q ∈ (x, y) :: rest) := by
        intro q hqL
        obtain ⟨d, hd, heq, hinq, hfgq, hW⟩ := (hLmem q).mp hqL
        exact hW
      have hmap : ∀ q : ℤ × ℤ, (V0 q ∨ q ∈ D ∨ q ∈ (x, y) :: rest) →
          (V0 q ∨ q ∈ insert (x, y) D ∨ q ∈ rest ++ L) := by
        intro q
        simp only [Finset.mem_insert, List.mem_cons, List.mem_append]
        tauto
      have hinv2 : BfsInv img B V0 seed (insert (x, y) D)
          (List.foldl (tryNeighbor img bg t (x, y)) st1 neighborOffsets) := by
        refine ⟨hLsh, ?_, ?_, ?_, ?_, ?_, ?_, ?_, ?_, ?_⟩
        · intro q hin
          rw [hLchar q hin, hLq]
          simp only [Finset.mem_insert, List.mem_cons, List.mem_append]
          tauto
        · intro q hqm
          rcases Finset.mem_insert.mp hqm with rfl | hqD
          · exact hpB
          · exact hDB q hqD
        · intro q hqm
          rw [hLq] at hqm
          rcases List.mem_append.mp hqm with h2 | h2
          · exact hQB q (List.mem_cons_of_mem _ h2)
          · exact hLB q h2
        · rw [hLq]
          rcases hseed with h2 | h2
          · exact Or.inl (Finset.mem_insert_of_mem h2)
          · rcases List.mem_cons.mp h2 with h3 | h3
            · exact Or.inl (by rw [h3]; exact Finset.mem_insert_self _ _)
            · exact Or.inr (List.mem_append_left _ h3)
        · intro p2 hp2 q hadj hqB
          rw [hLq]
          rcases Finset.mem_insert.mp hp2 with rfl | hp2D
          · by_cases hW : V0 q ∨ q ∈ D ∨ q ∈ (x, y) :: rest
            · exact hmap q hW
            · refine Or.inr (Or.inr (List.mem_append_right _ ?_))
              obtain ⟨d, hd, heq⟩ := (adj8_iff_offset (x, y) q).mp hadj
              exact (hLmem q).mpr ⟨d, hd, heq, hBin q hqB, hBfg q hqB, hW⟩
          · exact hmap q (hclo p2 hp2D q hadj hqB)
        · rw [hLm1, hmx1, hx1, Finset.Insert.comm,
            bminX_insert (x, y) (insert seed D) (Finset.insert_nonempty _ _)]
          exact min_comm _ _
        · rw [hLm3, hmx2, hx2, Finset.Insert.comm,
            bmaxX_insert (x, y) (insert seed D) (Finset.insert_nonempty _ _)]
          exact max_comm _ _
        · rw [hLm2, hmy1, hy1, Finset.Insert.comm,
            bminY_insert (x, y) (insert seed D) (Finset.insert_nonempty _ _)]
          exact min_comm _ _
        · rw [hLm4, hmy2, hy2, Finset.Insert.comm,
            bmaxY_insert (x, y) (insert seed D) (Finset.insert_nonempty _ _)]
          exact max_comm _ _
      have hmeas : (B \ (insert (x, y) D ∪ (List.foldl (tryNeighbor img bg t
          (x, y)) st1 neighborOffsets).queue.toFinset)).card
          + (List.foldl (tryNeighbor img bg t (x, y)) st1
              neighborOffsets).queue.length < fuel := by
        rw [hLq]
        have hMeq : insert (x, y) D ∪ (rest ++ L).toFinset
            = (D ∪ ((x, y) :: rest).toFinset) ∪ L.toFinset := by
          ext q
          simp only [Finset.mem_union, Finset.mem_insert, List.mem_toFinset,
            List.mem_cons, List.mem_append]
          tauto
        have hset2 : B \ ((D ∪ ((x, y) :: rest).toFinset) ∪ L.toFinset)
            = (B \ (D ∪ ((x, y) :: rest).toFinset)) \ L.toFinset := by
          ext q
          simp only [Finset.mem_sdiff, Finset.mem_union]
          tauto
        have hsubL : L.toFinset ⊆ B \ (D ∪ ((x, y) :: rest).toFinset) := by
          intro q hqf
          rw [List.mem_toFinset] at hqf
          rw [Finset.mem_sdiff]
          refine ⟨hLB q hqf, ?_⟩
          intro hmem
          apply hLfresh q hqf
          rcases Finset.mem_union.mp hmem with h2 | h2
          · exact Or.inr (Or.inl h2)
          · exact Or.inr (Or.inr (List.mem_toFinset.mp h2))
        have hcard := Finset.card_sdiff hsubL
        have hle := Finset.card_le_card hsubL
        have hlen : L.toFinset.card = L.length :=
          List.toFinset_card_of_nodup hLnd
        rw [hMeq, hset2, hcard, hlen, List.length_append]
        rw [List.length_cons] at hm
        omega
      obtain ⟨D2, hD2, hinvf, hqf⟩ := ih (insert (x, y) D)
        (List.foldl (tryNeighbor img bg t (x, y)) st1 neighborOffsets)
        hinv2 hmeas
      exact ⟨D2, Finset.Subset.trans (Finset.subset_insert _ _) hD2, hinvf, hqf⟩

/-- When the queue has drained, the popped set is the whole blob and the
recorded bounds are the blob's true bounds. -/
theorem bfsInv_final (img : Img) (B : Finset (ℤ × ℤ)) (V0 : (ℤ × ℤ) → Prop)
    (seed : ℤ × ℤ) (D : Finset (ℤ × ℤ)) (st : BfsState)
    (hinv : BfsInv img B V0 seed D st) (hq : st.queue = [])
    (hseedB : seed ∈ B)
    (hV0B : ∀ q ∈ B, ¬ V0 q)
    (hconn : ∀ q ∈ B, Relation.ReflTransGen
      (fun u v => v ∈ B ∧ adj8 u v) seed q) :
    D = B ∧ st.minX = bminX B ∧ st.maxX = bmaxX B
      ∧ st.minY = bminY B ∧ st.maxY = bmaxY B
      ∧ (∀ q, inB img q → (visTrue st.visited q ↔ (V0 q ∨ q ∈ B))) := by
  obtain ⟨hsh, hchar, hDB, hQB, hseed, hclo, hx1, hx2, hy1, hy2⟩ := hinv
  rw [hq] at hchar hseed hclo
  have hseedD : seed ∈ D := by
    rcases hseed with h | h
    · exact h
    · exact absurd h (List.not_mem_nil seed)
  have hBD : ∀ q ∈ B, q ∈ D := by
    intro q hqB
    have hr := hconn q hqB
    clear hqB
    induction hr with
    | refl => exact hseedD
    | tail h1 h2 ih =>
      rcases hclo _ ih _ h2.2 h2.1 with h3 | h3 | h3
      · exact absurd h3 (hV0B _ h2.1)
      · exact h3
      · exact absurd h3 (List.not_mem_nil _)
  have hDeq : D = B :=
    Finset.Subset.antisymm (fun q hq2 => hDB q hq2) (fun q hq2 => hBD q hq2)
  have hins : insert seed D = B := by
    rw [hDeq, Finset.insert_eq_self.mpr hseedB]
  refine ⟨hDeq, ?_, ?_, ?_, ?_, ?_⟩
  · rw [hx1, hins]
  · rw [hx2, hins]
  · rw [hy1, hins]
  · rw [hy2, hins]
  · intro q hin
    rw [hchar q hin, hDeq]
    simp

/-- A set of in-bounds cells has at most width * height elements. -/
theorem card_le_grid (img : Img) (B : Finset (ℤ × ℤ))
    (hBin : ∀ q ∈ B, inB img q) : B.card ≤ img.width * img.height := by
  have hsub : B ⊆ Finset.Ico (0 : ℤ) (img.width : ℤ) ×ˢ
      Finset.Ico (0 : ℤ) (img.height : ℤ) := by
    intro q hq
    have h2 : 0 ≤ q.1 ∧ q.1 < (img.width : ℤ) ∧ 0 ≤ q.2
        ∧ q.2 < (img.height : ℤ) := hBin q hq
    rw [Finset.mem_product, Finset.mem_Ico, Finset.mem_Ico]
    exact ⟨⟨h2.1, h2.2.1⟩, ⟨h2.2.2.1, h2.2.2.2⟩⟩
  have h2 := Finset.card_le_card hsub
  rw [Finset.card_product, Int.card_Ico, Int.card_Ico] at h2
  have e1 : ((img.width : ℤ) - 0).toNat = img.width := by omega
  have e2 : ((img.height : ℤ) - 0).toNat = img.height := by omega
  rw [e1, e2] at h2
  exact h2

/-- Flood-fill specification: seeded inside a blob whose cells are all
unvisited, the fill returns exactly the blob's bounding box (the blob
being at least 5 x 5 here) and marks exactly the blob's cells on top of
the previous marks. -/
theorem findSpriteRegion_spec (img : Img) (bg : Pixel) (t : ℕ)
    (B : Finset (ℤ × ℤ)) (sx sy : ℤ) (visited : List (List Bool))
    (hs : VShape img visited)
    (hseedB : (sx, sy) ∈ B)
    (hBin : ∀ q ∈ B, inB img q)
    (hBfg : ∀ q ∈ B, fgP img bg t q)
    (hBmax : ∀ p ∈ B, ∀ q, adj8 p q → inB img q → fgP img bg t q → q ∈ B)
    (hV0B : ∀ q ∈ B, ¬ visTrue visited q)
    (hconn : ∀ q ∈ B, Relation.ReflTransGen
      (fun u v => v ∈ B ∧ adj8 u v) (sx, sy) q)
    (hbigX : 5 ≤ bmaxX B - bminX B + 1) (hbigY : 5 ≤ bmaxY B - bminY B + 1) :
    (findSpriteRegion img bg t sx sy visited).1 = some (blobRect B)
    ∧ VShape img (findSpriteRegion img bg t sx sy visited).2
    ∧ (∀ q, inB img q →
        (visTrue (findSpriteRegion img bg t sx sy visited).2 q
          ↔ (visTrue visited q ∨ q ∈ B))) := by
  have hseedIn : 0 ≤ sx ∧ sx < (img.width : ℤ) ∧ 0 ≤ sy
      ∧ sy < (img.height : ℤ) := hBin _ hseedB
  obtain ⟨hx0, hx1, hy0, hy1⟩ := hseedIn
  have hwpos : 0 < img.width := by omega
  have hhpos : 0 < img.height := by omega
  have hsh0 : VShape img (seedState sx sy visited).visited :=
    visSetZ_shape img visited sy sx true hs
  have hinv0 : BfsInv img B (fun q => visTrue visited q) (sx, sy) ∅
      (seedState sx sy visited) := by
    refine ⟨hsh0, ?_, ?_, ?_, ?_, ?_, ?_, ?_, ?_, ?_⟩
    · intro q hin
      have h2 := visTrue_visSetZ img visited hs sx sy hx0 hx1 hy0 hy1 q hin
      show visTrue (visSetZ visited sy sx true) q ↔ _
      rw [h2]
      show _ ↔ (visTrue visited q ∨ q ∈ (∅ : Finset (ℤ × ℤ))
        ∨ q ∈ [(sx, sy)])
      simp only [Finset.not_mem_empty, List.mem_singleton, false_or]
    · intro q hqm
      exact absurd hqm (Finset.not_mem_empty q)
    · intro q hqm
      have h2 : q ∈ [(sx, sy)] := hqm
      rw [List.mem_singleton] at h2
      subst h2
      exact hseedB
    · exact Or.inr (show (sx, sy) ∈ [(sx, sy)] from List.mem_singleton_self _)
    · intro p hp
      exact absurd hp (Finset.not_mem_empty p)
    · show sx = bminX (insert (sx, sy) ∅)
      rw [show (insert (sx, sy) (∅ : Finset (ℤ × ℤ))) = {(sx, sy)} from by simp]
      exact ((bbox_singleton (sx, sy)).1).symm
    · show sx = bmaxX (insert (sx, sy) ∅)
      rw [show (insert (sx, sy) (∅ : Finset (ℤ × ℤ))) = {(sx, sy)} from by simp]
      exact ((bbox_singleton (sx, sy)).2.1).symm
    · show sy = bminY (insert (sx, sy) ∅)
      rw [show (insert (sx, sy) (∅ : Finset (ℤ × ℤ))) = {(sx, sy)} from by simp]
      exact ((bbox_singleton (sx, sy)).2.2.1).symm
    · show sy = bmaxY (insert (sx, sy) ∅)
      rw [show (insert (sx, sy) (∅ : Finset (ℤ × ℤ))) = {(sx, sy)} from by simp]
      exact ((bbox_singleton (sx, sy)).2.2.2).symm
  have hq0 : (seedState sx sy visited).queue = [(sx, sy)] := rfl
  have hmeas0 : (B \ (∅ ∪ (seedState sx sy visited).queue.toFinset)).card
      + (seedState sx sy visited).queue.length
      < img.width * img.height + 1 := by
    rw [hq0]
    have h1 : ((∅ : Finset (ℤ × ℤ)) ∪ ([(sx, sy)] : List (ℤ × ℤ)).toFinset)
        = {(sx, sy)} := by simp
    rw [h1]
    have h2 : (B \ {(sx, sy)}).card = B.card - 1 := by
      rw [Finset.card_sdiff (Finset.singleton_subset_iff.mpr hseedB)]
      simp
    have h3 : 1 ≤ B.card := Finset.card_pos.mpr ⟨_, hseedB⟩
    have h4 := card_le_grid img B hBin
    have h5 : 0 < img.width * img.height := Nat.mul_pos hwpos hhpos
    simp only [List.length_cons, List.length_nil]
    omega
  obtain ⟨D2, hD2sub, hinvf, hqf⟩ := bfsLoop_invariant img bg t B
    (fun q => visTrue visited q) (sx, sy) hBin hBfg hBmax
    (img.width * img.height + 1) ∅ (seedState sx sy visited) hinv0 hmeas0
  have hshf : VShape img (floodState img bg t sx sy visited).visited :=
    hinvf.1
  obtain ⟨hDeq, hbx1, hbx2, hby1, hby2, hcharf⟩ :=
    bfsInv_final img B (fun q => visTrue visited q) (sx, sy) D2
      (bfsLoop img bg t (img.width * img.height + 1) (seedState sx sy visited))
      hinvf hqf hseedB hV0B hconn
  have hbx1f : (floodState img bg t sx sy visited).minX = bminX B := hbx1
  have hbx2f : (floodState img bg t sx sy visited).maxX = bmaxX B := hbx2
  have hby1f : (floodState img bg t sx sy visited).minY = bminY B := hby1
  have hby2f : (floodState img bg t sx sy visited).maxY = bmaxY B := hby2
  have hw5 : ¬ ((floodState img bg t sx sy visited).maxX
      - (floodState img bg t sx sy visited).minX + 1 < 5
      ∨ (floodState img bg t sx sy visited).maxY
        - (floodState img bg t sx sy visited).minY + 1 < 5) := by
    rw [hbx1f, hbx2f, hby1f, hby2f]
    omega
  refine ⟨?_, ?_, ?_⟩
  · show (if (floodState img bg t sx sy visited).maxX
        - (floodState img bg t sx sy visited).minX + 1 < 5
        ∨ (floodState img bg t sx sy visited).maxY
          - (floodState img bg t sx sy visited).minY + 1 < 5
      then none
      else some (⟨(floodState img bg t sx sy visited).minX,
        (floodState img bg t sx sy visited).minY,
        (floodState img bg t sx sy visited).maxX
          - (floodState img bg t sx sy visited).minX + 1,
        (floodState img bg t sx sy visited).maxY
          - (floodState img bg t sx sy visited).minY + 1⟩ : Rect))
      = some (blobRect B)
    rw [if_neg hw5, hbx1f, hbx2f, hby1f, hby2f]
    rfl
  · exact hshf
  · intro q hin
    exact hcharf q hin

/-- The fresh visited grid is everywhere false. -/
theorem visGetN_fresh (img : Img) (yn xn : ℕ) :
    visGetN (List.replicate img.height (List.replicate img.width false))
      yn xn = false := by
  unfold visGetN
  rw [List.getElem?_replicate]
  by_cases h : yn < img.height
  · rw [if_pos h]
    simp only [Option.getD_some]
    rw [List.getD_eq_getElem?_getD, List.getElem?_replicate]
    by_cases h2 : xn < img.width
    · rw [if_pos h2]
      rfl
    · rw [if_neg h2]
      rfl
  · rw [if_neg h]
    simp only [Option.getD_none]
    rw [List.getD_eq_getElem?_getD]
    simp

/-- One raster-scan pixel under the blob hypotheses: the scan succeeds,
the discovered list grows by at most the blob containing the pixel, and
afterwards the pixel is visited or not foreground. -/
theorem scanPixel_blob_step (img : Img) (bg : Pixel) (t : ℕ)
    (Blobs : List (Finset (ℤ × ℤ)))
    (hBprops : ∀ B ∈ Blobs, (∀ q ∈ B, inB img q)
      ∧ (∀ q ∈ B, fgP img bg t q)
      ∧ (∀ p ∈ B, ∀ q, adj8 p q → inB img q → fgP img bg t q → q ∈ B)
      ∧ (∀ s ∈ B, ∀ q ∈ B, Relation.ReflTransGen
          (fun u v => v ∈ B ∧ adj8 u v) s q)
      ∧ 5 ≤ bmaxX B - bminX B + 1 ∧ 5 ≤ bmaxY B - bminY B + 1)
    (hdisj : ∀ B1 ∈ Blobs, ∀ B2 ∈ Blobs, ∀ p, p ∈ B1 → p ∈ B2 → B1 = B2)
    (hcov : ∀ q, inB img q → fgP img bg t q → ∃ B ∈ Blobs, q ∈ B)
    (y x : ℤ) (hx : 0 ≤ x) (hx2 : x < (img.width : ℤ)) (hy : 0 ≤ y)
    (hy2 : y < (img.height : ℤ))
    (S : List (Finset (ℤ × ℤ))) (st : DetState)
    (hinv : ScanInv img Blobs S st) :
    ∃ S2 st2, scanPixel img bg t y st x = .ok st2
      ∧ ScanInv img Blobs S2 st2
      ∧ (∃ tail, S2 = S ++ tail)
      ∧ (visTrue st2.visited (x, y) ∨ ¬ fgP img bg t (x, y))
      ∧ st2.progress = st.progress := by
  obtain ⟨hsh, hchar, hSB, hSnd, hrects⟩ := hinv
  obtain ⟨row, hrow, hrowget⟩ := pyGet_ok st.visited y hy
    (by rw [hsh.1]; exact hy2)
  have hrlen : row.length = img.width := hsh.2 row (List.getElem?_mem hrowget)
  obtain ⟨v, hv, hvget⟩ := pyGet_ok row x hx (by rw [hrlen]; exact hx2)
  have hvis : visGetN st.visited y.toNat x.toNat = v := by
    unfold visGetN
    rw [hrowget]
    simp only [Option.getD_some]
    rw [List.getD_eq_getElem?_getD, hvget]
    rfl
  unfold scanPixel
  rw [hrow, except_bind_ok, hv, except_bind_ok]
  by_cases hvb : v = true
  · rw [if_pos hvb, except_pure_ok]
    refine ⟨S, st, rfl, ⟨hsh, hchar, hSB, hSnd, hrects⟩, ⟨[], by simp⟩,
      ?_, rfl⟩
    left
    show visGetN st.visited y.toNat x.toNat = true
    rw [hvis]
    exact hvb
  · rw [if_neg hvb]
    have hunvis : ¬ visTrue st.visited (x, y) := by
      show ¬ visGetN st.visited y.toNat x.toNat = true
      intro h2
      rw [hvis] at h2
      exact hvb h2
    have hpix : pixGet img x y = .ok (img.pix x.toNat y.toNat) := by
      unfold pixGet pyIdx
      rw [if_pos ⟨hx, hx2⟩, if_pos ⟨hy, hy2⟩]
    rw [hpix, except_bind_ok]
    by_cases hc : 128 < (img.pix x.toNat y.toNat).a ∧
        ¬ isBackground (img.pix x.toNat y.toNat) bg t = true
    · rw [if_pos hc]
      have hfgxy : fgP img bg t (x, y) := hc
      have hinxy : inB img (x, y) := ⟨hx, hx2, hy, hy2⟩
      obtain ⟨B, hBmem, hxyB⟩ := hcov (x, y) hinxy hfgxy
      obtain ⟨hBin, hBfg, hBmax, hBconn, hbigX, hbigY⟩ := hBprops B hBmem
      have hBnotS : B ∉ S := by
        intro h2
        exact hunvis ((hchar (x, y) hinxy).mpr ⟨B, h2, hxyB⟩)
      have hV0B : ∀ q ∈ B, ¬ visTrue st.visited q := by
        intro q hqB h2
        obtain ⟨B2, hB2S, hqB2⟩ := (hchar q (hBin q hqB)).mp h2
        have h3 : B2 = B := hdisj B2 (hSB B2 hB2S) B hBmem q hqB2 hqB
        rw [h3] at hB2S
        exact hBnotS hB2S
      obtain ⟨hr1, hr2, hr3⟩ := findSpriteRegion_spec img bg t B x y
        st.visited hsh hxyB hBin hBfg hBmax hV0B (hBconn (x, y) hxyB)
        hbigX hbigY
      cases h4 : findSpriteRegion img bg t x y st.visited with
      | mk o vis2 =>
        rw [h4] at hr1 hr2 hr3
        have hr1o : o = some (blobRect B) := hr1
        subst hr1o
        have hr2v : VShape img vis2 := hr2
        have hr3v : ∀ q, inB img q →
            (visTrue vis2 q ↔ (visTrue st.visited q ∨ q ∈ B)) := hr3
        refine ⟨S ++ [B],
          { st with visited := vis2, rects := st.rects ++ [blobRect B] },
          rfl, ?_, ⟨[B], rfl⟩, ?_, rfl⟩
        · refine ⟨hr2v, ?_, ?_, ?_, ?_⟩
          · intro q hin
            show visTrue vis2 q ↔ ∃ B2 ∈ S ++ [B], q ∈ B2
            rw [hr3v q hin, hchar q hin]
            constructor
            · rintro (⟨B2, hB2, hq2⟩ | hq2)
              · exact ⟨B2, List.mem_append_left _ hB2, hq2⟩
              · exact ⟨B, List.mem_append_right _ (List.mem_singleton_self _),
                  hq2⟩
            · rintro ⟨B2, hB2, hq2⟩
              rcases List.mem_append.mp hB2 with h5 | h5
              · exact Or.inl ⟨B2, h5, hq2⟩
              · rw [List.mem_singleton] at h5
                subst h5
                exact Or.inr hq2
          · intro B2 hB2
            rcases List.mem_append.mp hB2 with h5 | h5
            · exact hSB B2 h5
            · rw [List.mem_singleton] at h5
              subst h5
              exact hBmem
          · rw [List.nodup_append]
            refine ⟨hSnd, List.nodup_singleton _, ?_⟩
            intro a ha hb
            rw [List.mem_singleton] at hb
            subst hb
            exact hBnotS ha
          · show st.rects ++ [blobRect B] = (S ++ [B]).map blobRect
            rw [hrects, List.map_append]
            rfl
        · left
          show visGetN vis2 y.toNat x.toNat = true
          exact (hr3v (x, y) hinxy).mpr (Or.inr hxyB)
    · rw [if_neg hc, except_pure_ok]
      refine ⟨S, st, rfl, ⟨hsh, hchar, hSB, hSnd, hrects⟩, ⟨[], by simp⟩,
        ?_, rfl⟩
      right
      intro h2
      exact hc h2

/-- A raster row under the blob hypotheses. -/
theorem scanRow_blob (img : Img) (bg : Pixel) (t : ℕ)
    (Blobs : List (Finset (ℤ × ℤ)))
    (hBprops : ∀ B ∈ Blobs, (∀ q ∈ B, inB img q)
      ∧ (∀ q ∈ B, fgP img bg t q)
      ∧ (∀ p ∈ B, ∀ q, adj8 p q → inB img q → fgP img bg t q → q ∈ B)
      ∧ (∀ s ∈ B, ∀ q ∈ B, Relation.ReflTransGen
          (fun u v => v ∈ B ∧ adj8 u v) s q)
      ∧ 5 ≤ bmaxX B - bminX B + 1 ∧ 5 ≤ bmaxY B - bminY B + 1)
    (hdisj : ∀ B1 ∈ Blobs, ∀ B2 ∈ Blobs, ∀ p, p ∈ B1 → p ∈ B2 → B1 = B2)
    (hcov : ∀ q, inB img q → fgP img bg t q → ∃ B ∈ Blobs, q ∈ B)
    (y : ℤ) (hy : 0 ≤ y) (hy2 : y < (img.height : ℤ)) :
    ∀ (xs : List ℤ), (∀ x ∈ xs, 0 ≤ x ∧ x < (img.width : ℤ)) →
    ∀ (S : List (Finset (ℤ × ℤ))) (st : DetState), ScanInv img Blobs S st →
      ∃ S2 st2, xs.foldlM (scanPixel img bg t y) st = .ok st2
        ∧ ScanInv img Blobs S2 st2
        ∧ (∃ tail, S2 = S ++ tail)
        ∧ (∀ x ∈ xs, visTrue st2.visited (x, y) ∨ ¬ fgP img bg t (x, y))
        ∧ (∀ q, inB img q → visTrue st.visited q → visTrue st2.visited q)
        ∧ st2.progress = st.progress := by
  intro xs
  induction xs with
  | nil =>
    intro _ S st hinv
    exact ⟨S, st, rfl, hinv, ⟨[], by simp⟩, by simp, fun q _ h => h, rfl⟩
  | cons x0 l ih =>
    intro hxs S st hinv
    obtain ⟨S1, st1, h1, hinv1, ⟨t1, ht1⟩, hproc1, hprog1⟩ :=
      scanPixel_blob_step img bg t Blobs hBprops hdisj hcov y x0
        (hxs x0 (by simp)).1 (hxs x0 (by simp)).2 hy hy2 S st hinv
    obtain ⟨S2, st2, h2, hinv2, ⟨t2, ht2⟩, hproc2, hmono2, hprog2⟩ :=
      ih (fun x hxm => hxs x (by simp [hxm])) S1 st1 hinv1
    have hmono1 : ∀ q, inB img q → visTrue st.visited q →
        visTrue st1.visited q := by
      intro q hin hvq
      obtain ⟨_, hchar, _, _, _⟩ := hinv
      obtain ⟨_, hchar1, _, _, _⟩ := hinv1
      obtain ⟨B2, hB2, hq2⟩ := (hchar q hin).mp hvq
      refine (hchar1 q hin).mpr ⟨B2, ?_, hq2⟩
      rw [ht1]
      exact List.mem_append_left _ hB2
    refine ⟨S2, st2, ?_, hinv2,
      ⟨t1 ++ t2, by rw [ht2, ht1, List.append_assoc]⟩, ?_, ?_, ?_⟩
    · rw [List.foldlM_cons, h1, except_bind_ok]
      exact h2
    · intro x hxm
      rcases List.mem_cons.mp hxm with rfl | hxl
      · rcases hproc1 with h5 | h5
        · exact Or.inl (hmono2 (x, y)
            ⟨(hxs x (by simp)).1, (hxs x (by simp)).2, hy, hy2⟩ h5)
        · exact Or.inr h5
      · exact hproc2 x hxl
    · intro q hin hvq
      exact hmono2 q hin (hmono1 q hin hvq)
    · rw [hprog2, hprog1]

/-- The rows of one scan area under the blob hypotheses. -/
theorem scanAreaRows_blob (img : Img) (bg : Pixel) (t : ℕ)
    (Blobs : List (Finset (ℤ × ℤ)))
    (hBprops : ∀ B ∈ Blobs, (∀ q ∈ B, inB img q)
      ∧ (∀ q ∈ B, fgP img bg t q)
      ∧ (∀ p ∈ B, ∀ q, adj8 p q → inB img q → fgP img bg t q → q ∈ B)
      ∧ (∀ s ∈ B, ∀ q ∈ B, Relation.ReflTransGen
          (fun u v => v ∈ B ∧ adj8 u v) s q)
      ∧ 5 ≤ bmaxX B - bminX B + 1 ∧ 5 ≤ bmaxY B - bminY B + 1)
    (hdisj : ∀ B1 ∈ Blobs, ∀ B2 ∈ Blobs, ∀ p, p ∈ B1 → p ∈ B2 → B1 = B2)
    (hcov : ∀ q, inB img q → fgP img bg t q → ∃ B ∈ Blobs, q ∈ B)
    (ax aw : ℤ) (hax : 0 ≤ ax) (haw : ax + aw ≤ (img.width : ℤ)) :
    ∀ (ys : List ℤ), (∀ y ∈ ys, 0 ≤ y ∧ y < (img.height : ℤ)) →
    ∀ (S : List (Finset (ℤ × ℤ))) (st : DetState), ScanInv img Blobs S st →
      ∃ S2 st2, ys.foldlM (fun s y => do
          let s2 ← (intRange ax (ax + aw)).foldlM (scanPixel img bg t y) s
          pure { s2 with progress := s2.progress
            ++ [Int.tdiv (100 * y) (img.height : ℤ)] }) st = .ok st2
        ∧ ScanInv img Blobs S2 st2
        ∧ (∃ tail, S2 = S ++ tail)
        ∧ (∀ y ∈ ys, ∀ x, ax ≤ x → x < ax + aw →
            (visTrue st2.visited (x, y) ∨ ¬ fgP img bg t (x, y)))
        ∧ (∀ q, inB img q → visTrue st.visited q → visTrue st2.visited q) := by
  intro ys
  induction ys with
  | nil =>
    intro _ S st hinv
    exact ⟨S, st, rfl, hinv, ⟨[], by simp⟩, by simp, fun q _ h => h⟩
  | cons y0 l ih =>
    intro hys S st hinv
    obtain ⟨S1, st1, h1, hinv1, ⟨t1, ht1⟩, hproc1, hmono1, hprog1⟩ :=
      scanRow_blob img bg t Blobs hBprops hdisj hcov y0
        (hys y0 (by simp)).1 (hys y0 (by simp)).2 (intRange ax (ax + aw))
        (fun x hxm => by
          have := mem_intRange.mp hxm
          omega) S st hinv
    have hinv1p : ScanInv img Blobs S1
        { st1 with progress := st1.progress
          ++ [Int.tdiv (100 * y0) (img.height : ℤ)] } := hinv1
    obtain ⟨S2, st2, h2, hinv2, ⟨t2, ht2⟩, hproc2, hmono2⟩ :=
      ih (fun y hym => hys y (by simp [hym]))
        S1 { st1 with progress := st1.progress
          ++ [Int.tdiv (100 * y0) (img.height : ℤ)] } hinv1p
    refine ⟨S2, st2, ?_, hinv2,
      ⟨t1 ++ t2, by rw [ht2, ht1, List.append_assoc]⟩, ?_, ?_⟩
    · rw [List.foldlM_cons]
      rw [show ((do
          let s2 ← (intRange ax (ax + aw)).foldlM (scanPixel img bg t y0) st
          pure { s2 with progress := s2.progress
            ++ [Int.tdiv (100 * y0) (img.height : ℤ)] }) :
          Except Unit DetState)
        = Except.ok { st1 with progress := st1.progress
            ++ [Int.tdiv (100 * y0) (img.height : ℤ)] } by
          rw [h1, except_bind_ok, except_pure_ok]]
      rw [except_bind_ok]
      exact h2
    · intro y hym x hx1 hx2
      rcases List.mem_cons.mp hym with rfl | hyl
      · rcases hproc1 x (mem_intRange.mpr ⟨hx1, hx2⟩) with h5 | h5
        · refine Or.inl (hmono2 (x, y) ⟨by omega, by omega,
            (hys y (by simp)).1, (hys y (by simp)).2⟩ h5)
        · exact Or.inr h5
      · exact hproc2 y hyl x hx1 hx2
    · intro q hin hvq
      exact hmono2 q hin (hmono1 q hin hvq)

/-- Claim C2: for a synthetic image holding k pairwise separated
8-connected solid blobs (each with a bounding box at least 5 x 5, every
blob pixel fully opaque and at squared RGB distance at least threshold
squared from the background colour, every other pixel exactly the
background colour), a whole-image detection run succeeds and returns
exactly k regions, namely the true bounding boxes of the k blobs (as a
permutation of the blob list, i.e. one box per blob). -/
theorem detect_blob_bounds (img : Img) (bg : Pixel) (t : ℕ)
    (Blobs : List (Finset (ℤ × ℤ)))
    (ht : 0 < t)
    (hne : ∀ B ∈ Blobs, B.Nonempty)
    (hin : ∀ B ∈ Blobs, ∀ q ∈ B, inB img q)
    (hsolid : ∀ B ∈ Blobs, ∀ q ∈ B, (img.pix q.1.toNat q.2.toNat).a = 255
      ∧ (t : ℤ) * t ≤ distSq (img.pix q.1.toNat q.2.toNat) bg)
    (hbgnd : ∀ q, inB img q → (∀ B ∈ Blobs, q ∉ B) →
      img.pix q.1.toNat q.2.toNat = bg)
    (hsep : Blobs.Pairwise (fun B1 B2 => ∀ p ∈ B1, ∀ q ∈ B2,
      p ≠ q ∧ ¬ adj8 p q))
    (hconn : ∀ B ∈ Blobs, ∀ s ∈ B, ∀ q ∈ B, Relation.ReflTransGen
      (fun u v => v ∈ B ∧ adj8 u v) s q)
    (hbig : ∀ B ∈ Blobs, 5 ≤ bmaxX B - bminX B + 1
      ∧ 5 ≤ bmaxY B - bminY B + 1) :
    ∃ rects progress, detectSprites img bg t [] = .ok (rects, progress)
      ∧ rects.Perm (Blobs.map blobRect)
      ∧ rects.length = Blobs.length := by
  have hfg : ∀ B ∈ Blobs, ∀ q ∈ B, fgP img bg t q := by
    intro B hB q hq
    obtain ⟨ha, hd⟩ := hsolid B hB q hq
    refine ⟨by rw [ha]; omega, ?_⟩
    intro hbad
    unfold isBackground at hbad
    rw [if_neg (by rw [ha]; omega)] at hbad
    rw [decide_eq_true_eq] at hbad
    exact absurd hbad (not_lt.mpr hd)
  have hcov : ∀ q, inB img q → fgP img bg t q → ∃ B ∈ Blobs, q ∈ B := by
    intro q hin2 hfg2
    by_contra hnone
    push_neg at hnone
    have hbgq := hbgnd q hin2 hnone
    obtain ⟨hfga, hfgb⟩ := hfg2
    apply hfgb
    rw [hbgq]
    unfold isBackground
    by_cases hA : bg.a < 128
    · rw [if_pos hA]
    · rw [if_neg hA]
      rw [decide_eq_true_eq]
      have h0 : distSq bg bg = 0 := by unfold distSq; ring
      rw [h0]
      have htz : (0 : ℤ) < (t : ℤ) := by exact_mod_cast ht
      exact mul_pos htz htz
  have hsymm : Symmetric (fun (B1 B2 : Finset (ℤ × ℤ)) =>
      ∀ p ∈ B1, ∀ q ∈ B2, p ≠ q ∧ ¬ adj8 p q) := by
    intro B1 B2 hR p hp q hq
    obtain ⟨hne2, hnadj⟩ := hR q hq p hp
    exact ⟨fun h => hne2 h.symm, fun h => hnadj (adj8_symm h)⟩
  have hsep2 : ∀ B1 ∈ Blobs, ∀ B2 ∈ Blobs, B1 ≠ B2 →
      ∀ p ∈ B1, ∀ q ∈ B2, p ≠ q ∧ ¬ adj8 p q := by
    intro B1 h1 B2 h2 hne12
    exact List.Pairwise.forall hsymm hsep h1 h2 hne12
  have hdisj : ∀ B1 ∈ Blobs, ∀ B2 ∈ Blobs, ∀ p, p ∈ B1 → p ∈ B2 →
      B1 = B2 := by
    intro B1 h1 B2 h2 p hp1 hp2
    by_contra hne12
    exact (hsep2 B1 h1 B2 h2 hne12 p hp1 p hp2).1 rfl
  have hBprops : ∀ B ∈ Blobs, (∀ q ∈ B, inB img q)
      ∧ (∀ q ∈ B, fgP img bg t q)
      ∧ (∀ p ∈ B, ∀ q, adj8 p q → inB img q → fgP img bg t q → q ∈ B)
      ∧ (∀ s ∈ B, ∀ q ∈ B, Relation.ReflTransGen
          (fun u v => v ∈ B ∧ adj8 u v) s q)
      ∧ 5 ≤ bmaxX B - bminX B + 1 ∧ 5 ≤ bmaxY B - bminY B + 1 := by
    intro B hB
    refine ⟨hin B hB, hfg B hB, ?_, hconn B hB, (hbig B hB).1, (hbig B hB).2⟩
    intro p hp q hadj hinq hfgq
    obtain ⟨B2, hB2, hqB2⟩ := hcov q hinq hfgq
    by_cases heq : B2 = B
    · rw [heq] at hqB2
      exact hqB2
    · exact absurd hadj
        (hsep2 B hB B2 hB2 (fun h => heq h.symm) p hp q hqB2).2
  have hBnd : Blobs.Nodup := by
    have hgen : ∀ (l : List (Finset (ℤ × ℤ))), (∀ B ∈ l, B.Nonempty) →
        l.Pairwise (fun B1 B2 => ∀ p ∈ B1, ∀ q ∈ B2, p ≠ q ∧ ¬ adj8 p q) →
        l.Nodup := by
      intro l
      induction l with
      | nil => intro _ _; exact List.nodup_nil
      | cons a l2 ih =>
        intro hne2 hp
        rw [List.pairwise_cons] at hp
        rw [List.nodup_cons]
        refine ⟨?_, ih (fun B hB => hne2 B (by simp [hB])) hp.2⟩
        intro hmem
        obtain ⟨p, hpa⟩ := hne2 a (by simp)
        exact (hp.1 a hmem p hpa p hpa).1 rfl
    exact hgen Blobs hne hsep
  have hinv0 : ScanInv img Blobs []
      ⟨List.replicate img.height (List.replicate img.width false), [], []⟩ := by
    refine ⟨initial_vshape img, ?_, ?_, List.nodup_nil, rfl⟩
    · intro q hin2
      show visGetN (List.replicate img.height (List.replicate img.width false))
        q.2.toNat q.1.toNat = true ↔ _
      rw [visGetN_fresh]
      simp
    · intro B hB
      exact absurd hB (List.not_mem_nil B)
  obtain ⟨S2, st2, hok, hinv2, _, hprocF, _⟩ :=
    scanAreaRows_blob img bg t Blobs hBprops hdisj hcov 0 (img.width : ℤ)
      le_rfl (by omega) (intRange 0 (0 + (img.height : ℤ)))
      (fun y hym => by
        have := mem_intRange.mp hym
        omega)
      [] ⟨List.replicate img.height (List.replicate img.width false), [], []⟩
      hinv0
  obtain ⟨hsh2, hchar2, hSB2, hS2nd, hrects2⟩ := hinv2
  have hmemS : ∀ B ∈ Blobs, B ∈ S2 := by
    intro B hB
    obtain ⟨p, hp⟩ := hne B hB
    have hpin : inB img p := hin B hB p hp
    have hpin4 : 0 ≤ p.1 ∧ p.1 < (img.width : ℤ) ∧ 0 ≤ p.2
        ∧ p.2 < (img.height : ℤ) := hpin
    have hproc := hprocF p.2 (mem_intRange.mpr ⟨by omega, by omega⟩)
      p.1 (by omega) (by omega)
    rcases hproc with h5 | h5
    · obtain ⟨B2, hB2, hpB2⟩ := (hchar2 p hpin).mp h5
      have h6 : B2 = B := hdisj B2 (hSB2 B2 hB2) B hB p hpB2 hp
      rw [h6] at hB2
      exact hB2
    · exact absurd (show fgP img bg t (p.1, p.2) from hfg B hB p hp) h5
  have hperm : S2.Perm Blobs :=
    (List.subperm_of_subset hS2nd (fun B hB => hSB2 B hB)).antisymm
      (List.subperm_of_subset hBnd (fun B hB => hmemS B hB))
  have heff : effectiveAreas img []
      = [⟨0, 0, (img.width : ℤ), (img.height : ℤ)⟩] := rfl
  have harea : scanArea img bg t
      ⟨List.replicate img.height (List.replicate img.width false), [], []⟩
      ⟨0, 0, (img.width : ℤ), (img.height : ℤ)⟩ = Except.ok st2 := hok
  refine ⟨st2.rects, st2.progress, ?_, ?_, ?_⟩
  · show ((effectiveAreas img []).foldlM (scanArea img bg t)
        ⟨List.replicate img.height (List.replicate img.width false), [], []⟩
        >>= fun st => pure (st.rects, st.progress))
      = Except.ok (st2.rects, st2.progress)
    rw [heff, List.foldlM_cons, harea]
    rfl
  · rw [hrects2]
    exact hperm.map blobRect
  · rw [hrects2, List.length_map]
    exact hperm.length_eq

/-- Any two cells of a filled rectangle are 8-connected inside it (walk
one step at a time, first in x, then in y). -/
theorem rect_blob_connected (x1 x2 y1 y2 : ℤ) :
    ∀ (n : ℕ) (s q : ℤ × ℤ), s ∈ Finset.Icc x1 x2 ×ˢ Finset.Icc y1 y2 →
      q ∈ Finset.Icc x1 x2 ×ˢ Finset.Icc y1 y2 →
      (|q.1 - s.1| + |q.2 - s.2|).toNat ≤ n →
      Relation.ReflTransGen (fun u v =>
        v ∈ Finset.Icc x1 x2 ×ˢ Finset.Icc y1 y2 ∧ adj8 u v) s q := by
  intro n
  induction n with
  | zero =>
    intro s q hs hq hd
    obtain ⟨sa, sb⟩ := s
    obtain ⟨qa, qb⟩ := q
    have hd' : (|qa - sa| + |qb - sb|).toNat ≤ 0 := hd
    have h2 : 0 ≤ |qa - sa| := abs_nonneg _
    have h3 : 0 ≤ |qb - sb| := abs_nonneg _
    have h4 : |qa - sa| = 0 := by omega
    have h5 : |qb - sb| = 0 := by omega
    have h6 : qa = sa := by
      have := abs_eq_zero.mp h4
      omega
    have h7 : qb = sb := by
      have := abs_eq_zero.mp h5
      omega
    subst h6
    subst h7
    exact Relation.ReflTransGen.refl
  | succ n ih =>
    intro s q hs hq hd
    obtain ⟨sa, sb⟩ := s
    obtain ⟨qa, qb⟩ := q
    have hsp := Finset.mem_product.mp hs
    have hqp := Finset.mem_product.mp hq
    have hsx : x1 ≤ sa ∧ sa ≤ x2 := Finset.mem_Icc.mp hsp.1
    have hsy : y1 ≤ sb ∧ sb ≤ y2 := Finset.mem_Icc.mp hsp.2
    have hqx : x1 ≤ qa ∧ qa ≤ x2 := Finset.mem_Icc.mp hqp.1
    have hqy : y1 ≤ qb ∧ qb ≤ y2 := Finset.mem_Icc.mp hqp.2
    have hd' : (|qa - sa| + |qb - sb|).toNat ≤ n + 1 := hd
    by_cases heq : sa = qa ∧ sb = qb
    · obtain ⟨h1, h2⟩ := heq
      subst h1
      subst h2
      exact Relation.ReflTransGen.refl
    · obtain ⟨a2, b2, hbx, hby, hadj3, hdec⟩ : ∃ a2 b2,
          (x1 ≤ a2 ∧ a2 ≤ x2) ∧ (y1 ≤ b2 ∧ b2 ≤ y2)
          ∧ adj8 (sa, sb) (a2, b2)
          ∧ (|qa - a2| + |qb - b2|).toNat ≤ n := by
        rcases lt_trichotomy sa qa with h1 | h1 | h1
        · -- move right
          refine ⟨sa + 1, sb, ⟨by omega, by omega⟩, ⟨hsy.1, hsy.2⟩,
            ⟨?_, ?_, ?_⟩, ?_⟩
          · intro h
            have h2 := congrArg Prod.fst h
            simp only at h2
            omega
          · show |sa - (sa + 1)| ≤ 1
            rw [show sa - (sa + 1) = -1 from by ring]
            decide
          · show |sb - sb| ≤ 1
            simp
          · have e0 : |qa - sa| = qa - sa := abs_of_nonneg (by omega)
            have e1 : |qa - (sa + 1)| = qa - sa - 1 := by
              rw [abs_of_nonneg (by omega)]
              ring
            rw [e0] at hd'
            rw [e1]
            omega
        · -- x aligned: move vertically
          rcases lt_trichotomy sb qb with h2 | h2 | h2
          · refine ⟨sa, sb + 1, ⟨hsx.1, hsx.2⟩, ⟨by omega, by omega⟩,
              ⟨?_, ?_, ?_⟩, ?_⟩
            · intro h
              have h3 := congrArg Prod.snd h
              simp only at h3
              omega
            · show |sa - sa| ≤ 1
              simp
            · show |sb - (sb + 1)| ≤ 1
              rw [show sb - (sb + 1) = -1 from by ring]
              decide
            · have e0 : |qb - sb| = qb - sb := abs_of_nonneg (by omega)
              have e1 : |qb - (sb + 1)| = qb - sb - 1 := by
                rw [abs_of_nonneg (by omega)]
                ring
              have e2 : |qa - sa| = 0 := abs_eq_zero.mpr (by omega)
              rw [e0, e2] at hd'
              rw [e1, e2]
              omega
          · exact absurd ⟨h1, h2⟩ heq
          · refine ⟨sa, sb - 1, ⟨hsx.1, hsx.2⟩, ⟨by omega, by omega⟩,
              ⟨?_, ?_, ?_⟩, ?_⟩
            · intro h
              have h3 := congrArg Prod.snd h
              simp only at h3
              omega
            · show |sa - sa| ≤ 1
              simp
            · show |sb - (sb - 1)| ≤ 1
              rw [show sb - (sb - 1) = 1 from by ring]
              decide
            · have e0 : |qb - sb| = sb - qb := by
                rw [abs_of_nonpos (by omega)]
                ring
              have e1 : |qb - (sb - 1)| = sb - 1 - qb := by
                rw [abs_of_nonpos (by omega)]
                ring
              have e2 : |qa - sa| = 0 := abs_eq_zero.mpr (by omega)
              rw [e0, e2] at hd'
              rw [e1, e2]
              omega
        · -- move left
          refine ⟨sa - 1, sb, ⟨by omega, by omega⟩, ⟨hsy.1, hsy.2⟩,
            ⟨?_, ?_, ?_⟩, ?_⟩
          · intro h
            have h2 := congrArg Prod.fst h
            simp only at h2
            omega
          · show |sa - (sa - 1)| ≤ 1
            rw [show sa - (sa - 1) = 1 from by ring]
            decide
          · show |sb - sb| ≤ 1
            simp
          · have e0 : |qa - sa| = sa - qa := by
              rw [abs_of_nonpos (by omega)]
              ring
            have e1 : |qa - (sa - 1)| = sa - 1 - qa := by
              rw [abs_of_nonpos (by omega)]
              ring
            rw [e0] at hd'
            rw [e1]
            omega
      refine Relation.ReflTransGen.head
        ⟨Finset.mem_product.mpr ⟨Finset.mem_Icc.mpr hbx, Finset.mem_Icc.mpr hby⟩,
          hadj3⟩
        (ih (a2, b2) (qa, qb)
          (Finset.mem_product.mpr
            ⟨Finset.mem_Icc.mpr hbx, Finset.mem_Icc.mpr hby⟩)
          hq hdec)

/-- Witness for detect_blob_bounds: the 5 x 5 black blob of img7x7 is
detected on a whole-image run with threshold 50. -/
theorem detect_blob_bounds_witness :
    ∃ rects progress,
      detectSprites img7x7 whitePx 50 [] = .ok (rects, progress)
      ∧ rects.Perm ([blob1].map blobRect)
      ∧ rects.length = [blob1].length :=
  detect_blob_bounds img7x7 whitePx 50 [blob1]
    (by decide)
    (by
      intro B hB
      rw [List.mem_singleton] at hB
      subst hB
      exact ⟨(1, 1), by decide⟩)
    (by decide)
    (by decide)
    (by
      intro q hq hnb
      have hq4 : 0 ≤ q.1 ∧ q.1 < (7 : ℤ) ∧ 0 ≤ q.2 ∧ q.2 < (7 : ℤ) := hq
      have hnb1 : q ∉ blob1 := hnb blob1 (List.mem_singleton_self _)
      show (if 1 ≤ q.1.toNat ∧ q.1.toNat ≤ 5 ∧ 1 ≤ q.2.toNat ∧ q.2.toNat ≤ 5
        then blackPx else whitePx) = whitePx
      rw [if_neg]
      intro hcond
      apply hnb1
      have h2 : q ∈ Finset.Icc (1 : ℤ) 5 ×ˢ Finset.Icc (1 : ℤ) 5 := by
        rw [Finset.mem_product, Finset.mem_Icc, Finset.mem_Icc]
        omega
      exact h2)
    (by simp)
    (by
      intro B hB
      rw [List.mem_singleton] at hB
      subst hB
      intro s hs q hq
      exact rect_blob_connected 1 5 1 5 ((|q.1 - s.1| + |q.2 - s.2|).toNat)
        s q hs hq le_rfl)
    (by decide)

end SSH
